import Mathlib

/-!
Ansible inventory export (`lib/ansible/inventory.go`).

A shallow embedding of the inventory grouping and serialization code of
`lib/ansible/inventory.go`, and theorems about it.

* Go strings are Lean strings, which are the Go strings that hold valid UTF-8;
  a Go string with other bytes in it is not an input of this embedding.  The two
  standard-library string functions the package calls (`strings.ToLower`,
  `strings.Split`) are embedded on the list of characters of the string.
* A Go `map[string]T` is a `GoMap T`: a key-unique association list.  The list
  order is one `range` order of the map; an assignment `m[k] = v` replaces the
  entry of `k` in place, or adds a new entry.
* A run-time panic and a returned `error` are the two constructors of `Failure`;
  code that can panic or return an error is a function into `Except Failure`.
* The value handed to `json.Marshal` is rendered as a `Json` tree, the members of
  an object written in increasing key order as `encoding/json` does for maps.
  `encoding/json` writes a string of valid UTF-8 so that it reads back as itself,
  and writes every byte that is not valid UTF-8 as U+FFFD; only the former
  occurs here.
* Standard output is the text written to it; its lines are the pieces between
  line breaks.
-/

namespace Ansible

/-! ## Go strings -/

namespace strings

/-- The lower-case mapping of one rune: the ASCII capitals, and the two
non-ASCII runes whose lower case is an ASCII letter (U+0130 and U+212A); any
other rune is never mapped to an ASCII letter and is left alone here. -/
def toLowerRune (c : Char) : Char :=
  if 65 ≤ c.toNat ∧ c.toNat ≤ 90 then Char.ofNat (c.toNat + 32)
  else if c.toNat = 0x130 then 'i'
  else if c.toNat = 0x212A then 'k'
  else c

/-- Go `strings.ToLower(s)`: every rune of `s` mapped to lower case. -/
def ToLower (s : String) : String :=
  String.mk (s.data.map toLowerRune)

/-- The pieces of a list of characters between the occurrences of `sep`. -/
def splitChars (sep : Char) : List Char → List (List Char)
  | [] => [[]]
  | c :: cs =>
    if c = sep then [] :: splitChars sep cs
    else
      match splitChars sep cs with
      | [] => [[c]]
      | piece :: pieces => (c :: piece) :: pieces

/-- Go `strings.Split(s, sep)` for a separator of one character (the package only
ever splits on ":"): the substrings of `s` between the separators. -/
def Split (s : String) (sep : Char) : List String :=
  (splitChars sep s.data).map String.mk

end strings

/-! ## Failures -/

/-- The two ways a Go call can fail to produce its value. -/
inductive Failure where
  | panic (msg : String)
  | error (msg : String)
  deriving DecidableEq, Repr

/-- Go `xs[0]` on a slice: element 0, or the index-out-of-range panic. -/
def index0 {α : Type} : List α → Except Failure α
  | [] => .error (.panic "index out of range [0] with length 0")
  | x :: _ => .ok x

/-! ## Go maps -/

/-- Assignment `m[k] = v` on the entries of a map: replace the value of `k` where
it stands, or add the entry. -/
def setEntries {α : Type} (k : String) (v : α) : List (String × α) → List (String × α)
  | [] => [(k, v)]
  | (k', v') :: rest => if k' = k then (k, v) :: rest else (k', v') :: setEntries k v rest

theorem keys_setEntries {α : Type} (k : String) (v : α) (es : List (String × α)) :
    (setEntries k v es).map Prod.fst =
      if k ∈ es.map Prod.fst then es.map Prod.fst else es.map Prod.fst ++ [k] := by
  induction es with
  | nil => simp [setEntries]
  | cons e rest ih =>
    obtain ⟨k', v'⟩ := e
    by_cases h : k' = k
    · subst h; simp [setEntries]
    · have h' : ¬ k = k' := fun e => h e.symm
      by_cases hm : k ∈ rest.map Prod.fst
      · simp only [setEntries, h, if_false, List.map_cons, ih, hm, if_true, List.mem_cons,
          or_true]
      · simp only [setEntries, h, if_false, List.map_cons, ih, hm, List.mem_cons, h', or_self,
          List.cons_append]

theorem nodup_keys_setEntries {α : Type} (k : String) (v : α) (es : List (String × α))
    (h : (es.map Prod.fst).Nodup) : ((setEntries k v es).map Prod.fst).Nodup := by
  rw [keys_setEntries]
  split
  · exact h
  · rename_i hk
    exact List.Nodup.append h (List.nodup_singleton k) (by simpa using hk)

/-- A Go `map[string]α`: entries with pairwise distinct keys, listed in one
iteration (`range`) order. -/
structure GoMap (α : Type) where
  entries : List (String × α)
  nodup : (entries.map Prod.fst).Nodup

namespace GoMap

variable {α : Type}

/-- Go `make(map[string]α)`: the empty map. -/
def empty : GoMap α := ⟨[], List.nodup_nil⟩

/-- The two-valued lookup `v, ok := m[k]`. -/
def get? (m : GoMap α) (k : String) : Option α := m.entries.lookup k

/-- Go `m[k]` as an expression: the value of `k`, or the zero value `zero` of the
element type when `k` is absent. -/
def index (m : GoMap α) (k : String) (zero : α) : α := (m.get? k).getD zero

/-- Go `m[k] = v`. -/
def set (m : GoMap α) (k : String) (v : α) : GoMap α :=
  ⟨setEntries k v m.entries, nodup_keys_setEntries k v m.entries m.nodup⟩

/-- The keys of the map, in iteration order. -/
def keys (m : GoMap α) : List String := m.entries.map Prod.fst

end GoMap

/-! ## Host records -/

/-- The part of the `services.Server` interface this package reads: the three
getters `GetHostname()`, `GetAddr()` and `GetAllLabels()`. -/
structure Server where
  GetHostname : String
  GetAddr : String
  GetAllLabels : GoMap String

/-! ## `bufferLabels` and `trimTrailingPort` -/

/-- The inner loop of `bufferLabels`, over the labels of the host `hostname`: a
label whose lower-cased value is "ansible" appends the hostname to the group
named by the label key. -/
def bufferLabelsHost (hostname : String) (labels : List (String × String))
    (labelBuffer : GoMap (List String)) : GoMap (List String) :=
  labels.foldl
    (fun labelBuffer lv =>
      if strings.ToLower lv.2 = "ansible" then
        labelBuffer.set lv.1 (labelBuffer.index lv.1 [] ++ [hostname])
      else labelBuffer)
    labelBuffer

/-- Go `bufferLabels(nodes)`: the groups, each the list of the hostnames appended
to it. -/
def bufferLabels (nodes : List Server) : GoMap (List String) :=
  nodes.foldl
    (fun labelBuffer n => bufferLabelsHost n.GetHostname n.GetAllLabels.entries labelBuffer)
    GoMap.empty

/-- Go `trimTrailingPort(nodeAddr)`: element 0 of `strings.Split(nodeAddr, ":")`. -/
def trimTrailingPort (nodeAddr : String) : Except Failure String :=
  index0 (strings.Split nodeAddr ':')

/-! ## JSON values -/

/-- The JSON text `encoding/json` writes, as a tree: a string, an array, or an
object given by its members in the order they are written.  A string stands for
the string that is read back from the text, which for valid UTF-8 is the string
that was written. -/
inductive Json where
  | str (s : String)
  | arr (items : List Json)
  | obj (members : List (String × Json))

/-- The entries of a map in increasing key order (the keys compared character
by character), the order in which `encoding/json` writes the members of a map. -/
def sortedEntries {α : Type} (m : GoMap α) : List (String × α) :=
  m.entries.insertionSort (fun a b => a.1.data ≤ b.1.data)

/-- A group of the inventory: `Hosts` and `Vars`, written under the JSON keys
"hosts" and "vars". -/
structure Group where
  Hosts : List String
  Vars : GoMap String

/-- The `_meta` block: `map[string]map[string]map[string]string`. -/
abbrev Meta := GoMap (GoMap (GoMap String))

/-- The two kinds of value `MarshalInventoryList` stores in its
`map[string]interface{}`: a `Group`, or the meta block. -/
inductive InventoryValue where
  | group (g : Group)
  | metaBlock (m : Meta)

namespace json

/-- JSON of a `map[string]string`. -/
def encodeStringMap (m : GoMap String) : Json :=
  .obj ((sortedEntries m).map (fun kv => (kv.1, Json.str kv.2)))

/-- JSON of a `Group`: the struct fields in declaration order under their tags.
`Hosts` is always the result of an `append`, so it is written as an array. -/
def encodeGroup (g : Group) : Json :=
  .obj [("hosts", .arr (g.Hosts.map Json.str)), ("vars", encodeStringMap g.Vars)]

/-- JSON of the meta block. -/
def encodeMeta (m : Meta) : Json :=
  .obj ((sortedEntries m).map (fun kv =>
    (kv.1, Json.obj ((sortedEntries kv.2).map (fun hv => (hv.1, encodeStringMap hv.2))))))

/-- JSON of one value of the inventory map. -/
def encodeValue : InventoryValue → Json
  | .group g => encodeGroup g
  | .metaBlock m => encodeMeta m

/-- JSON of the inventory map. -/
def encodeInventory (inventory : GoMap InventoryValue) : Json :=
  .obj ((sortedEntries inventory).map (fun kv => (kv.1, encodeValue kv.2)))

/-- Go `json.Marshal(hostvars)` on a `map[string]string`: maps with string keys
and these value types are always encodable, so the error is always nil. -/
def MarshalStringMap (m : GoMap String) : Except String Json := .ok (encodeStringMap m)

/-- Go `json.Marshal(inventory)` on the inventory map; the error is always nil. -/
def MarshalInventory (inventory : GoMap InventoryValue) : Except String Json :=
  .ok (encodeInventory inventory)

end json

/-! ## `MarshalInventoryList` -/

/-- Go `m[k1][k2] = v` on a map of maps: assignment into the map stored under
`k1`; a missing `m[k1]` is a nil map, and assigning into it panics. -/
def assign2 {α : Type} (m : GoMap (GoMap α)) (k1 k2 : String) (v : α) :
    Except Failure (GoMap (GoMap α)) :=
  match m.get? k1 with
  | none => .error (.panic "assignment to entry in nil map")
  | some inner => .ok (m.set k1 (inner.set k2 v))

/-- Go `m[k1][k2][k3] = v`. -/
def assign3 {α : Type} (m : GoMap (GoMap (GoMap α))) (k1 k2 k3 : String) (v : α) :
    Except Failure (GoMap (GoMap (GoMap α))) :=
  match m.get? k1 with
  | none => .error (.panic "assignment to entry in nil map")
  | some inner =>
    match assign2 inner k2 k3 v with
    | .error e => .error e
    | .ok inner' => .ok (m.set k1 inner')

/-- The first loop of `MarshalInventoryList`: every group of `hostsByLabels`
stored as a `Group` with an empty `Vars`. -/
def inventoryGroups (hostsByLabels : GoMap (List String)) : GoMap InventoryValue :=
  hostsByLabels.entries.foldl
    (fun inventory kh => inventory.set kh.1 (.group { Hosts := kh.2, Vars := GoMap.empty }))
    GoMap.empty

/-- The body of the second loop of `MarshalInventoryList`, for the node `n`. -/
def hostvarsStep (metaBlock : Meta) (n : Server) : Except Failure Meta := do
  let metaBlock ← assign2 metaBlock "hostvars" n.GetHostname GoMap.empty
  let IP ← trimTrailingPort n.GetAddr
  assign3 metaBlock "hostvars" n.GetHostname "ansible_host_ip" IP

/-- The second loop of `MarshalInventoryList`. -/
def hostvarsLoop : List Server → Meta → Except Failure Meta
  | [], metaBlock => .ok metaBlock
  | n :: rest, metaBlock =>
    match hostvarsStep metaBlock n with
    | .error e => .error e
    | .ok metaBlock' => hostvarsLoop rest metaBlock'

/-- The meta block `MarshalInventoryList` builds: `meta["hostvars"]` made empty,
then filled by the loop over the nodes. -/
def buildMeta (nodes : List Server) : Except Failure Meta :=
  hostvarsLoop nodes ((GoMap.empty : Meta).set "hostvars" GoMap.empty)

/-- The object `MarshalInventoryList` hands to `json.Marshal`: the groups, then
the meta block stored under "_meta". -/
def buildInventory (nodes : List Server) : Except Failure (GoMap InventoryValue) :=
  match buildMeta nodes with
  | .error e => .error e
  | .ok metaBlock => .ok ((inventoryGroups (bufferLabels nodes)).set "_meta" (.metaBlock metaBlock))

/-- Go `MarshalInventoryList(nodes)`: the JSON of the inventory, or the wrapped
encoding error. -/
def MarshalInventoryList (nodes : List Server) : Except Failure Json :=
  match buildInventory nodes with
  | .error e => .error e
  | .ok inventory =>
    match json.MarshalInventory inventory with
    | .error err => .error (.error ("can not encode JSON object: " ++ err))
    | .ok out => .ok out

/-! ## `MarshalInventoryHost` -/

/-- The loop of `MarshalInventoryHost`: the first node whose hostname is `host`
sets `hostvars["ansible_host_ip"]` and breaks out of the loop. -/
def hostLoop (host : String) : List Server → GoMap String → Except Failure (GoMap String)
  | [], hostvars => .ok hostvars
  | n :: rest, hostvars =>
    if n.GetHostname = host then
      match index0 (strings.Split n.GetAddr ':') with
      | .error e => .error e
      | .ok nodeIP => .ok (hostvars.set "ansible_host_ip" nodeIP)
    else hostLoop host rest hostvars

/-- The `hostvars` map `MarshalInventoryHost` hands to `json.Marshal`. -/
def buildHostvars (nodes : List Server) (host : String) : Except Failure (GoMap String) :=
  hostLoop host nodes GoMap.empty

/-- Go `MarshalInventoryHost(nodes, host)`. -/
def MarshalInventoryHost (nodes : List Server) (host : String) : Except Failure Json :=
  match buildHostvars nodes host with
  | .error e => .error e
  | .ok hostvars =>
    match json.MarshalStringMap hostvars with
    | .error err => .error (.error ("can not encode JSON object: " ++ err))
    | .ok out => .ok out

/-! ## `StaticInventory` -/

namespace fmt

/-- Go `fmt.Println(a)` on one string: the text it writes to standard output,
the string followed by a line break. -/
def Println (a : String) : String :=
  String.mk (a.data ++ ['\n'])

end fmt

/-- The arguments of the successive `fmt.Println` calls of `StaticInventory`
for the map `inventory` ranged over in the order of its entries: for every
group the header "[" + groupName + "]", then every element of its list. -/
def printedArguments (inventory : GoMap (List String)) : List String :=
  inventory.entries.flatMap (fun gn => ("[" ++ gn.1 ++ "]") :: gn.2)

/-- The text written by calling `fmt.Println` on each of `args` in turn. -/
def printAll (args : List String) : String :=
  String.mk (args.flatMap (fun a => (fmt.Println a).data))

/-- The text `StaticInventory` writes to standard output for the map
`inventory` ranged over in the order of its entries. -/
def printInventory (inventory : GoMap (List String)) : String :=
  printAll (printedArguments inventory)

/-- Go `StaticInventory(nodes)`: the text written to standard output when the
range over the groups follows the entry order of `bufferLabels nodes`. -/
def StaticInventory (nodes : List Server) : String :=
  printInventory (bufferLabels nodes)

/-! ## Specification vocabulary -/

/-- The test `bufferLabels` applies to a label value: it matches "ansible"
case-insensitively. -/
def matchesAnsible (val : String) : Bool :=
  decide (strings.ToLower val = "ansible")

/-- The label set `labels` maps the key `K` to a value matching "ansible". -/
def labelsMatch (labels : List (String × String)) (K : String) : Bool :=
  match labels.lookup K with
  | some val => matchesAnsible val
  | none => false

/-- The host record `n` has the label key `K` with a value matching "ansible". -/
def hasAnsibleLabel (n : Server) (K : String) : Bool :=
  labelsMatch n.GetAllLabels.entries K

/-- The hostnames, in input order and with repetitions, of the records whose
labels map `K` to a value matching "ansible". -/
def groupMembers (nodes : List Server) (K : String) : List String :=
  (nodes.filter (fun n => hasAnsibleLabel n K)).map Server.GetHostname

/-- The part of an address before its first ':' (all of it when it has none). -/
def beforeColon (a : String) : String :=
  String.mk (a.data.takeWhile (fun c => decide (c ≠ ':')))

/-- The variables of one host record: the single variable "ansible_host_ip",
the part of the address before its first ':'. -/
def hostVarsOf (n : Server) : GoMap String :=
  (GoMap.empty : GoMap String).set "ansible_host_ip" (beforeColon n.GetAddr)

/-- The hostvars mapping after the records `nodes` have been written into
`hostvars`, one after the other, each under its hostname. -/
def hostvarsAfter (nodes : List Server) (hostvars : GoMap (GoMap String)) :
    GoMap (GoMap String) :=
  nodes.foldl (fun hostvars n => hostvars.set n.GetHostname (hostVarsOf n)) hostvars

/-- The meta block whose single key "hostvars" holds `hostvars`. -/
def metaOf (hostvars : GoMap (GoMap String)) : Meta :=
  (GoMap.empty : Meta).set "hostvars" hostvars

/-! ## Decoding a listing

Reading the JSON of a listing back into the data model of the specification:
the groups (every member of the top-level object but "_meta") and the hostvars
(the member "hostvars" of "_meta"). -/

/-- A decoded group: its hosts and its variables. -/
structure DecodedGroup where
  hosts : List String
  vars : List (String × String)
  deriving DecidableEq, Repr

/-- A decoded listing: the groups by name, and the variables of every host. -/
structure DecodedInventory where
  groups : List (String × DecodedGroup)
  hostvars : List (String × List (String × String))
  deriving DecidableEq, Repr

namespace json

/-- A JSON string. -/
def decodeString : Json → Option String
  | .str s => some s
  | _ => none

/-- Every item of an array decoded with `dec`. -/
def decodeItems {β : Type} (dec : Json → Option β) : List Json → Option (List β)
  | [] => some []
  | j :: rest =>
    match dec j, decodeItems dec rest with
    | some v, some vs => some (v :: vs)
    | _, _ => none

/-- Every member of an object decoded with `dec`, under its key. -/
def decodeMembers {β : Type} (dec : Json → Option β) :
    List (String × Json) → Option (List (String × β))
  | [] => some []
  | kj :: rest =>
    match dec kj.2, decodeMembers dec rest with
    | some v, some vs => some ((kj.1, v) :: vs)
    | _, _ => none

/-- A JSON array of strings. -/
def decodeStringList : Json → Option (List String)
  | .arr items => decodeItems decodeString items
  | _ => none

/-- A JSON object whose values are strings. -/
def decodeStringMap : Json → Option (List (String × String))
  | .obj members => decodeMembers decodeString members
  | _ => none

/-- The member `k` of a JSON object. -/
def field (k : String) : Json → Option Json
  | .obj members => members.lookup k
  | _ => none

/-- A group: the members "hosts" and "vars". -/
def decodeGroup (j : Json) : Option DecodedGroup :=
  match (field "hosts" j).bind decodeStringList, (field "vars" j).bind decodeStringMap with
  | some hosts, some vars => some { hosts := hosts, vars := vars }
  | _, _ => none

/-- The hostvars: an object whose values are objects of strings. -/
def decodeHostvars : Json → Option (List (String × List (String × String)))
  | .obj members => decodeMembers decodeStringMap members
  | _ => none

/-- A listing: the hostvars under "_meta", and a group for every other member. -/
def decodeInventory : Json → Option DecodedInventory
  | .obj members =>
    match (members.lookup "_meta").bind (fun m => (field "hostvars" m).bind decodeHostvars),
      decodeMembers decodeGroup (members.filter (fun kj => decide (kj.1 ≠ "_meta"))) with
    | some hostvars, some groups => some { groups := groups, hostvars := hostvars }
    | _, _ => none
  | _ => none

end json

/-- How a value of the inventory map reads back as a group (the meta block is
not a group and reads back as nothing). -/
def valueAsGroup : InventoryValue → DecodedGroup
  | .group g => { hosts := g.Hosts, vars := sortedEntries g.Vars }
  | .metaBlock _ => { hosts := [], vars := [] }

/-- The lines of a text: the pieces between its line breaks, the empty piece
after a final line break not being a line. -/
def textLines (text : String) : List String :=
  let pieces := strings.splitChars '\n' text.data
  (if pieces.getLast? = some [] then pieces.dropLast else pieces).map String.mk

/-- A line of the form "[" name "]". -/
def isHeaderLine (line : String) : Bool :=
  match line.data with
  | '[' :: rest => decide (rest.getLast? = some ']')
  | _ => false

/-! ## `lib/utils/utils.go`

The three helpers of package `utils` the claims are about: `Deduplicate`,
`PortList.Pop` and `GetFreeTCPPorts`. -/

namespace utils

/-- The body of the loop of `Deduplicate` for the value `val`, on the pair of
`out` and `seen`: a value not yet in `seen` is appended to `out` and recorded. -/
def dedupStep (state : List String × GoMap Bool) (val : String) : List String × GoMap Bool :=
  match state.2.get? val with
  | some _ => state
  | none => (state.1 ++ [val], state.2.set val true)

/-- Go `Deduplicate(in)`: an empty slice is returned as it is, and otherwise the
`out` slice built by the loop over `in`. -/
def Deduplicate (input : List String) : List String :=
  if input.length = 0 then input
  else (input.foldl dedupStep ([], GoMap.empty)).1

/-- Go `type PortList []string`. -/
abbrev PortList := List String

/-- Go `(p *PortList).Pop()`: the returned value together with the new contents
of `*p`, or the panic. -/
def PortList.Pop (p : PortList) : Except Failure (String × PortList) :=
  if p.length = 0 then .error (.panic "list is empty")
  else
    match p[p.length - 1]? with
    | none => .error (.panic "index out of range")
    | some val => .ok (val, p.take (p.length - 1))

/-- The decimal digits of `n`, least significant first; `fuel` bounds their
number. -/
def digitsRev : Nat → Nat → List Char
  | 0, _ => []
  | fuel + 1, n =>
    Nat.digitChar (n % 10) :: (if n / 10 = 0 then [] else digitsRev fuel (n / 10))

/-- The decimal numeral of a natural number, without leading zeros. -/
def natDecimal (n : Nat) : String :=
  String.mk (digitsRev (n + 1) n).reverse

/-- Go `strconv.Itoa(i)`: the decimal string of `i`. -/
def Itoa (i : Int) : String :=
  if i < 0 then "-" ++ natDecimal i.natAbs else natDecimal i.toNat

/-- Go `int` arithmetic: a result wrapped to 64 bits, two's complement. -/
def wrapInt (x : Int) : Int :=
  (x + 2 ^ 63) % 2 ^ 64 - 2 ^ 63

/-- The loop `for i := ...; i < bound; i++ { list = append(list, strconv.Itoa(i)) }`
with `count` iterations left to run from `i`. -/
def portsLoop : Nat → Int → List String → List String
  | 0, _, list => list
  | count + 1, i, list => portsLoop count (wrapInt (i + 1)) (list ++ [Itoa i])

/-- Go `GetFreeTCPPorts(n)`.  `make(PortList, 0, n)` panics when `n` is negative
or exceeds `maxCap`, the largest capacity the runtime accepts for the slice; the
loop then runs from 20000 while `i < 20000+n`, that is `20000+n - 20000` times
when the bound is above 20000 and not at all otherwise; the error returned is
always nil. -/
def GetFreeTCPPorts (maxCap : Nat) (n : Int) : Except Failure PortList :=
  if n < 0 ∨ (maxCap : Int) < n then .error (.panic "makeslice: cap out of range")
  else .ok (portsLoop (wrapInt (20000 + n) - 20000).toNat 20000 [])

/-- The list that keeps the first occurrence of every value of `xs` and drops
every later one. -/
def firstOccurrences : List String → List String
  | [] => []
  | x :: rest => x :: (firstOccurrences rest).filter (fun y => decide (y ≠ x))

/-- The number a list of decimal digit characters, least significant first,
stands for. -/
def valueRev : List Char → Nat
  | [] => 0
  | c :: cs => (c.toNat - 48) + 10 * valueRev cs

end utils

/-! ## Example inputs -/

/-- The record "h1" appears twice; the second address is the one kept. -/
def duplicateHosts : List Server :=
  [⟨"h1", "10.0.0.1:22", GoMap.empty⟩, ⟨"h2", "10.0.0.2:22", GoMap.empty⟩,
   ⟨"h1", "10.0.0.9:2222", GoMap.empty⟩]

/-- The scenario input of the specification: "h1" carries the label
web = ansible, "h2" the label web = no. -/
def scenarioHosts : List Server :=
  [⟨"h1", "10.0.0.1:22", ⟨[("web", "ansible")], by decide⟩⟩,
   ⟨"h2", "10.0.0.2:22", ⟨[("web", "no")], by decide⟩⟩]

/-- The one host carries the label "_meta" = ansible. -/
def metaLabelHosts : List Server :=
  [⟨"h1", "10.0.0.1:22", ⟨[("_meta", "ansible")], by decide⟩⟩]

/-- A host record without any label. -/
def unlabelledHost : Server := ⟨"h1", "10.0.0.1:22", GoMap.empty⟩

/-- Two records share the hostname "h1": the first has no label at all, the
second carries web = ansible. -/
def sharedNameHosts : List Server :=
  [unlabelledHost, ⟨"h1", "10.0.0.7:22", ⟨[("web", "ansible")], by decide⟩⟩]

/-- The one host is named "[db]" and carries the label "_meta" = ansible. -/
def bracketHosts : List Server :=
  [⟨"[db]", "10.0.0.1:22", ⟨[("_meta", "ansible")], by decide⟩⟩]

/-- The one host has a line break in its name and carries web = ansible. -/
def lineBreakHosts : List Server :=
  [⟨"x\n[_meta]", "10.0.0.1:22", ⟨[("web", "ansible")], by decide⟩⟩]

/-- The one host carries a label whose key has a line break, valued ansible. -/
def lineBreakKeyHosts : List Server :=
  [⟨"h1", "10.0.0.1:22", ⟨[("a\nb", "ansible")], by decide⟩⟩]

/-- Two hosts in two groups. -/
def twoGroupHosts : List Server :=
  [⟨"h1", "10.0.0.1:22", ⟨[("web", "Ansible"), ("db", "no")], by decide⟩⟩,
   ⟨"h2", "10.0.0.2:22", ⟨[("web", "ANSIBLE"), ("db", "ansible")], by decide⟩⟩]

/-- The host records `nodes'` are the records `nodes` with the label entries of
each host listed in another order. -/
def SameUpToLabelOrder (nodes nodes' : List Server) : Prop :=
  List.Forall₂
    (fun n n' => n.GetHostname = n'.GetHostname ∧ n.GetAddr = n'.GetAddr ∧
      n.GetAllLabels.entries.Perm n'.GetAllLabels.entries)
    nodes nodes'

/-- The hosts of `twoGroupHosts` with the two labels of each host exchanged. -/
def twoGroupHostsSwapped : List Server :=
  [⟨"h1", "10.0.0.1:22", ⟨[("db", "no"), ("web", "Ansible")], by decide⟩⟩,
   ⟨"h2", "10.0.0.2:22", ⟨[("db", "ansible"), ("web", "ANSIBLE")], by decide⟩⟩]

/-! ## Lemmas: maps -/

theorem lookup_cons_ite {α : Type} (k k0 : String) (v0 : α) (rest : List (String × α)) :
    List.lookup k ((k0, v0) :: rest) = if k = k0 then some v0 else List.lookup k rest := by
  by_cases h : k = k0
  · subst h; simp [List.lookup]
  · have hb : (k == k0) = false := by simpa using h
    simp [List.lookup, hb, h]

theorem lookup_setEntries {α : Type} (k k' : String) (v : α) (es : List (String × α)) :
    (setEntries k v es).lookup k' = if k' = k then some v else es.lookup k' := by
  induction es with
  | nil => simp [setEntries, lookup_cons_ite]
  | cons e rest ih =>
    obtain ⟨k0, v0⟩ := e
    by_cases h0 : k0 = k
    · subst h0
      by_cases h : k' = k0 <;> simp [setEntries, lookup_cons_ite, h]
    · simp only [setEntries, h0, if_false, lookup_cons_ite, ih]
      by_cases h : k' = k
      · subst h
        have h1 : ¬ k' = k0 := fun e => h0 e.symm
        simp [h1]
      · simp [h]

namespace GoMap

variable {α : Type}

@[simp] theorem get?_empty (k : String) : (empty : GoMap α).get? k = none := rfl

theorem get?_set (m : GoMap α) (k k' : String) (v : α) :
    (m.set k v).get? k' = if k' = k then some v else m.get? k' :=
  lookup_setEntries k k' v m.entries

@[simp] theorem get?_set_self (m : GoMap α) (k : String) (v : α) :
    (m.set k v).get? k = some v := by simp [get?_set]

theorem get?_set_of_ne (m : GoMap α) {k k' : String} (v : α) (h : k' ≠ k) :
    (m.set k v).get? k' = m.get? k' := by simp [get?_set, h]

theorem ext_entries {m m' : GoMap α} (h : m.entries = m'.entries) : m = m' := by
  cases m; cases m'; cases h; rfl

end GoMap

/-- In a key-unique association list, looking a key up finds the value it is
paired with. -/
theorem lookup_eq_some_iff_mem {α : Type} (es : List (String × α))
    (h : (es.map Prod.fst).Nodup) (k : String) (v : α) :
    es.lookup k = some v ↔ (k, v) ∈ es := by
  induction es with
  | nil => simp [List.lookup]
  | cons e rest ih =>
    obtain ⟨k0, v0⟩ := e
    simp only [List.map_cons, List.nodup_cons] at h
    by_cases hk : k = k0
    · subst hk
      have hn : (k, v) ∉ rest := fun hm => h.1 (List.mem_map_of_mem Prod.fst hm)
      simp [lookup_cons_ite, hn, eq_comm]
    · simp [lookup_cons_ite, hk, ih h.2]

theorem lookup_isSome_iff_mem_keys {α : Type} (es : List (String × α)) (k : String) :
    (es.lookup k).isSome ↔ k ∈ es.map Prod.fst := by
  induction es with
  | nil => simp [List.lookup]
  | cons e rest ih =>
    obtain ⟨k0, v0⟩ := e
    by_cases hk : k = k0
    · simp [lookup_cons_ite, hk]
    · simp [lookup_cons_ite, hk, ih]

theorem GoMap.get?_eq_some_iff {α : Type} (m : GoMap α) (k : String) (v : α) :
    m.get? k = some v ↔ (k, v) ∈ m.entries :=
  lookup_eq_some_iff_mem m.entries m.nodup k v

theorem GoMap.mem_keys_iff {α : Type} (m : GoMap α) (k : String) :
    k ∈ m.keys ↔ ∃ v, m.get? k = some v := by
  rw [← Option.isSome_iff_exists]
  exact (lookup_isSome_iff_mem_keys m.entries k).symm

/-! ## Lemmas: `bufferLabels` -/

theorem GoMap.index_set_self {α : Type} (m : GoMap α) (k : String) (v zero : α) :
    (m.set k v).index k zero = v := by simp [GoMap.index]

theorem GoMap.index_set_of_ne {α : Type} (m : GoMap α) {k k' : String} (v zero : α)
    (h : k' ≠ k) : (m.set k v).index k' zero = m.index k' zero := by
  simp [GoMap.index, GoMap.get?_set_of_ne m v h]

theorem lookup_eq_none_of_not_mem_keys {α : Type} (es : List (String × α)) (k : String)
    (h : k ∉ es.map Prod.fst) : es.lookup k = none := by
  have h1 := (lookup_isSome_iff_mem_keys es k).not.mpr h
  cases hl : es.lookup k with
  | none => rfl
  | some v => rw [hl] at h1; exact absurd rfl h1

/-- One host: the group `K` gains the hostname when the labels map `K` to a
matching value, and is untouched otherwise. -/
theorem get?_bufferLabelsHost (hostname : String) (labels : List (String × String))
    (hl : (labels.map Prod.fst).Nodup) (b : GoMap (List String)) (K : String) :
    (bufferLabelsHost hostname labels b).get? K =
      if labelsMatch labels K then some (b.index K [] ++ [hostname]) else b.get? K := by
  induction labels generalizing b with
  | nil => simp [bufferLabelsHost, labelsMatch]
  | cons e rest ih =>
    obtain ⟨k, v⟩ := e
    simp only [List.map_cons, List.nodup_cons] at hl
    have hstep : bufferLabelsHost hostname ((k, v) :: rest) b =
        bufferLabelsHost hostname rest
          (if strings.ToLower v = "ansible" then b.set k (b.index k [] ++ [hostname]) else b) := by
      simp [bufferLabelsHost]
    rw [hstep, ih hl.2]
    by_cases hK : K = k
    · subst hK
      have hnone : rest.lookup K = none := lookup_eq_none_of_not_mem_keys rest K hl.1
      by_cases hv : strings.ToLower v = "ansible"
      · simp [labelsMatch, hnone, lookup_cons_ite, matchesAnsible, hv]
      · simp [labelsMatch, hnone, lookup_cons_ite, matchesAnsible, hv]
    · have hm : labelsMatch ((k, v) :: rest) K = labelsMatch rest K := by
        simp [labelsMatch, lookup_cons_ite, hK]
      rw [hm]
      by_cases hv : strings.ToLower v = "ansible"
      · simp [hv, GoMap.index_set_of_ne b _ _ hK, GoMap.get?_set_of_ne b _ hK]
      · simp [hv]

/-- The outer loop of `bufferLabels` started from any buffer `b`. -/
theorem get?_foldl_bufferLabelsHost (nodes : List Server) (b : GoMap (List String))
    (K : String) :
    (nodes.foldl
        (fun labelBuffer n => bufferLabelsHost n.GetHostname n.GetAllLabels.entries labelBuffer)
        b).get? K =
      if groupMembers nodes K = [] then b.get? K
      else some (b.index K [] ++ groupMembers nodes K) := by
  induction nodes generalizing b with
  | nil => simp [groupMembers]
  | cons n rest ih =>
    rw [List.foldl_cons, ih]
    have h1 := get?_bufferLabelsHost n.GetHostname n.GetAllLabels.entries n.GetAllLabels.nodup b K
    by_cases hn : hasAnsibleLabel n K = true
    · have hn' : labelsMatch n.GetAllLabels.entries K = true := hn
      have hg : groupMembers (n :: rest) K = n.GetHostname :: groupMembers rest K := by
        simp [groupMembers, List.filter_cons, hn]
      rw [hn', if_pos rfl] at h1
      simp [hg, GoMap.index, h1]
    · have hn' : labelsMatch n.GetAllLabels.entries K = false := by
        simpa [hasAnsibleLabel] using hn
      have hg : groupMembers (n :: rest) K = groupMembers rest K := by
        simp [groupMembers, List.filter_cons, hn]
      rw [hn'] at h1
      simp only [Bool.false_eq_true, if_false] at h1
      simp [hg, GoMap.index, h1]

/-- The group `K` of `bufferLabels`: absent when no record matches, and
otherwise the matching hostnames in input order. -/
theorem get?_bufferLabels (nodes : List Server) (K : String) :
    (bufferLabels nodes).get? K =
      if groupMembers nodes K = [] then none else some (groupMembers nodes K) := by
  unfold bufferLabels
  rw [get?_foldl_bufferLabelsHost]
  simp [GoMap.index]

theorem index_bufferLabels (nodes : List Server) (K : String) :
    (bufferLabels nodes).index K [] = groupMembers nodes K := by
  unfold GoMap.index
  rw [get?_bufferLabels]
  by_cases h : groupMembers nodes K = [] <;> simp [h]

theorem hasAnsibleLabel_iff (n : Server) (K : String) :
    hasAnsibleLabel n K = true ↔
      ∃ val, (K, val) ∈ n.GetAllLabels.entries ∧ strings.ToLower val = "ansible" := by
  unfold hasAnsibleLabel labelsMatch
  constructor
  · intro h
    split at h
    · rename_i val hval
      exact ⟨val, (lookup_eq_some_iff_mem _ n.GetAllLabels.nodup K val).mp hval,
        by simpa [matchesAnsible] using h⟩
    · exact absurd h (by simp)
  · rintro ⟨val, hmem, hval⟩
    rw [(lookup_eq_some_iff_mem _ n.GetAllLabels.nodup K val).mpr hmem]
    simp [matchesAnsible, hval]

theorem mem_groupMembers_iff (nodes : List Server) (K h : String) :
    h ∈ groupMembers nodes K ↔
      ∃ n ∈ nodes, n.GetHostname = h ∧ hasAnsibleLabel n K = true := by
  simp only [groupMembers, List.mem_map, List.mem_filter]
  constructor
  · rintro ⟨n, ⟨hn, hm⟩, rfl⟩; exact ⟨n, hn, rfl, hm⟩
  · rintro ⟨n, hn, rfl, hm⟩; exact ⟨n, ⟨hn, hm⟩, rfl⟩

/-! ## Lemmas: `strings.Split` -/

theorem splitChars_eq_cons (sep : Char) (cs : List Char) :
    ∃ pieces, strings.splitChars sep cs =
      cs.takeWhile (fun c => decide (c ≠ sep)) :: pieces := by
  induction cs with
  | nil => exact ⟨[], rfl⟩
  | cons c cs ih =>
    obtain ⟨pieces, hp⟩ := ih
    by_cases h : c = sep
    · exact ⟨strings.splitChars sep cs, by simp [strings.splitChars, h]⟩
    · exact ⟨pieces, by simp [strings.splitChars, h, hp]⟩

theorem index0_Split (a : String) :
    index0 (strings.Split a ':') = .ok (beforeColon a) := by
  obtain ⟨pieces, hp⟩ := splitChars_eq_cons ':' a.data
  simp [strings.Split, hp, index0, beforeColon]

theorem trimTrailingPort_eq (a : String) : trimTrailingPort a = .ok (beforeColon a) :=
  index0_Split a

theorem takeWhile_ne_decomp (sep : Char) (cs : List Char) :
    (sep ∉ cs ∧ cs.takeWhile (fun c => decide (c ≠ sep)) = cs) ∨
      ∃ rest, cs = cs.takeWhile (fun c => decide (c ≠ sep)) ++ sep :: rest := by
  induction cs with
  | nil => left; simp
  | cons c cs ih =>
    by_cases h : c = sep
    · right; exact ⟨cs, by simp [h]⟩
    · rcases ih with ⟨hn, he⟩ | ⟨rest, hr⟩
      · left
        refine ⟨?_, ?_⟩
        · simp only [List.mem_cons, not_or]
          exact ⟨fun e => h e.symm, hn⟩
        · rw [List.takeWhile_cons_of_pos (by simpa using h), he]
      · right
        refine ⟨rest, ?_⟩
        simp only [ne_eq, h, not_false_eq_true, decide_True, List.takeWhile_cons_of_pos,
          List.cons_append, List.cons.injEq, true_and]
        simpa using hr

theorem not_mem_takeWhile_ne (sep : Char) (cs : List Char) :
    sep ∉ cs.takeWhile (fun c => decide (c ≠ sep)) := by
  intro h
  have := List.mem_takeWhile_imp h
  simp at this

/-! ## Claims about `bufferLabels` and `trimTrailingPort` -/

/-- C1: a hostname `h` occurs in the host list of group `L` returned by
`bufferLabels` if and only if some input record with hostname `h` has a label
with key `L` whose value lower-cases to "ansible"; the group names are exactly
the label keys, unchanged, that carry such a value; and "Ansible", "ANSIBLE"
and "ansible" are all such values. -/
theorem bufferLabels_mem_iff (nodes : List Server) (h L : String) :
    (h ∈ (bufferLabels nodes).index L [] ↔
      ∃ n ∈ nodes, n.GetHostname = h ∧
        ∃ val, (L, val) ∈ n.GetAllLabels.entries ∧ strings.ToLower val = "ansible") ∧
    (L ∈ (bufferLabels nodes).keys ↔
      ∃ n ∈ nodes, ∃ val, (L, val) ∈ n.GetAllLabels.entries ∧
        strings.ToLower val = "ansible") ∧
    strings.ToLower "Ansible" = "ansible" ∧ strings.ToLower "ANSIBLE" = "ansible" ∧
    strings.ToLower "ansible" = "ansible" := by
  refine ⟨?_, ?_, by decide, by decide, by decide⟩
  · rw [index_bufferLabels, mem_groupMembers_iff]
    constructor
    · rintro ⟨n, hn, hh, hm⟩
      exact ⟨n, hn, hh, (hasAnsibleLabel_iff n L).mp hm⟩
    · rintro ⟨n, hn, hh, hm⟩
      exact ⟨n, hn, hh, (hasAnsibleLabel_iff n L).mpr hm⟩
  · rw [GoMap.mem_keys_iff, get?_bufferLabels]
    constructor
    · rintro ⟨v, hv⟩
      split at hv
      · exact absurd hv (by simp)
      · rename_i hne
        obtain ⟨x, hx⟩ := List.exists_mem_of_ne_nil _ hne
        obtain ⟨n, hn, _, hm⟩ := (mem_groupMembers_iff nodes L x).mp hx
        obtain ⟨val, hval⟩ := (hasAnsibleLabel_iff n L).mp hm
        exact ⟨n, hn, val, hval⟩
    · rintro ⟨n, hn, val, hval⟩
      have hx : n.GetHostname ∈ groupMembers nodes L :=
        (mem_groupMembers_iff nodes L _).mpr ⟨n, hn, rfl, (hasAnsibleLabel_iff n L).mpr ⟨val, hval⟩⟩
      have hne : groupMembers nodes L ≠ [] := List.ne_nil_of_mem hx
      exact ⟨groupMembers nodes L, by simp [hne]⟩

/-- C2: the host list of group `K` returned by `bufferLabels` is the list of the
hostnames, in input order and with repetitions kept, of exactly the records
whose labels map `K` to a value matching "ansible"; it is a subsequence of the
input hostnames, so it contains only hostnames of the input; and the group
exists exactly when that list is not empty. -/
theorem bufferLabels_group_eq (nodes : List Server) (K : String) :
    (bufferLabels nodes).index K [] =
      (nodes.filter (fun n => hasAnsibleLabel n K)).map Server.GetHostname ∧
    List.Sublist ((bufferLabels nodes).index K []) (nodes.map Server.GetHostname) ∧
    (∀ h ∈ (bufferLabels nodes).index K [], h ∈ nodes.map Server.GetHostname) ∧
    (∀ hosts, (bufferLabels nodes).get? K = some hosts ↔
      (hosts ≠ [] ∧
        hosts = (nodes.filter (fun n => hasAnsibleLabel n K)).map Server.GetHostname)) := by
  have hsub : List.Sublist (groupMembers nodes K) (nodes.map Server.GetHostname) :=
    List.Sublist.map _ (List.filter_sublist nodes)
  refine ⟨index_bufferLabels nodes K, ?_, ?_, ?_⟩
  · rw [index_bufferLabels]; exact hsub
  · rw [index_bufferLabels]; exact fun h hh => hsub.subset hh
  · intro hosts
    rw [get?_bufferLabels]
    change _ ↔ (hosts ≠ [] ∧ hosts = groupMembers nodes K)
    by_cases hne : groupMembers nodes K = []
    · simp only [hne, if_true]
      constructor
      · intro h; exact absurd h (by simp)
      · rintro ⟨h1, h2⟩; exact absurd h2 h1
    · simp only [hne, if_false, Option.some.injEq]
      constructor
      · intro h; subst h; exact ⟨hne, rfl⟩
      · rintro ⟨_, h2⟩; exact h2.symm

/-- C3: `trimTrailingPort a` returns the part of `a` before its first ':': the
result has no ':', and `a` is either the result itself (when `a` has no ':') or
the result followed by ':' and a remainder; so the result is a prefix of `a`,
"10.0.0.1:22" gives "10.0.0.1", "10.0.0.5" is unchanged and "[::1]:22" is cut at
its first colon. -/
theorem trimTrailingPort_before_first_colon (a : String) :
    ∃ ip, trimTrailingPort a = .ok ip ∧
      ':' ∉ ip.data ∧
      ((':' ∉ a.data ∧ ip = a) ∨ ∃ rest, a.data = ip.data ++ ':' :: rest) ∧
      ip.data <+: a.data ∧
      trimTrailingPort "10.0.0.1:22" = .ok "10.0.0.1" ∧
      trimTrailingPort "10.0.0.5" = .ok "10.0.0.5" ∧
      trimTrailingPort "[::1]:22" = .ok "[" := by
  refine ⟨beforeColon a, trimTrailingPort_eq a, not_mem_takeWhile_ne ':' a.data, ?_, ?_,
    rfl, rfl, rfl⟩
  · rcases takeWhile_ne_decomp ':' a.data with ⟨hn, he⟩ | ⟨rest, hr⟩
    · left
      refine ⟨hn, ?_⟩
      unfold beforeColon
      rw [he]
    · right; exact ⟨rest, hr⟩
  · exact List.takeWhile_prefix _

/-! ## Lemmas: the hostvars loop -/

theorem setEntries_setEntries {α : Type} (k : String) (v v' : α) (es : List (String × α)) :
    setEntries k v' (setEntries k v es) = setEntries k v' es := by
  induction es with
  | nil => simp [setEntries]
  | cons e rest ih =>
    obtain ⟨k0, v0⟩ := e
    by_cases h : k0 = k
    · simp [setEntries, h]
    · simp [setEntries, h, ih]

theorem GoMap.set_set {α : Type} (m : GoMap α) (k : String) (v v' : α) :
    (m.set k v).set k v' = m.set k v' :=
  GoMap.ext_entries (setEntries_setEntries k v v' m.entries)

theorem metaOf_get? (H : GoMap (GoMap String)) : (metaOf H).get? "hostvars" = some H := by
  simp [metaOf]

theorem metaOf_set (H H' : GoMap (GoMap String)) : (metaOf H).set "hostvars" H' = metaOf H' := by
  unfold metaOf
  rw [GoMap.set_set]

theorem hostvarsStep_metaOf (H : GoMap (GoMap String)) (n : Server) :
    hostvarsStep (metaOf H) n = .ok (metaOf (H.set n.GetHostname (hostVarsOf n))) := by
  have h1 : assign2 (metaOf H) "hostvars" n.GetHostname (GoMap.empty : GoMap String) =
      .ok (metaOf (H.set n.GetHostname GoMap.empty)) := by
    simp [assign2, metaOf_get?, metaOf_set]
  have h2 : assign3 (metaOf (H.set n.GetHostname GoMap.empty)) "hostvars" n.GetHostname
      "ansible_host_ip" (beforeColon n.GetAddr) =
      .ok (metaOf (H.set n.GetHostname (hostVarsOf n))) := by
    simp [assign3, assign2, metaOf_get?, metaOf_set, GoMap.set_set, hostVarsOf]
  unfold hostvarsStep
  rw [h1]
  simp only [bind, Except.bind, trimTrailingPort_eq]
  exact h2

theorem hostvarsLoop_metaOf (nodes : List Server) (H : GoMap (GoMap String)) :
    hostvarsLoop nodes (metaOf H) = .ok (metaOf (hostvarsAfter nodes H)) := by
  induction nodes generalizing H with
  | nil => rfl
  | cons n rest ih =>
    simp only [hostvarsLoop, hostvarsStep_metaOf, ih]
    rfl

theorem buildMeta_eq (nodes : List Server) :
    buildMeta nodes = .ok (metaOf (hostvarsAfter nodes GoMap.empty)) :=
  hostvarsLoop_metaOf nodes GoMap.empty

theorem buildInventory_eq (nodes : List Server) :
    buildInventory nodes =
      .ok ((inventoryGroups (bufferLabels nodes)).set "_meta"
        (.metaBlock (metaOf (hostvarsAfter nodes GoMap.empty)))) := by
  simp [buildInventory, buildMeta_eq]

theorem MarshalInventoryList_eq (nodes : List Server) :
    MarshalInventoryList nodes =
      .ok (json.encodeInventory ((inventoryGroups (bufferLabels nodes)).set "_meta"
        (.metaBlock (metaOf (hostvarsAfter nodes GoMap.empty))))) := by
  simp [MarshalInventoryList, buildInventory_eq, json.MarshalInventory]

theorem hostvarsAfter_append (xs ys : List Server) (H : GoMap (GoMap String)) :
    hostvarsAfter (xs ++ ys) H = hostvarsAfter ys (hostvarsAfter xs H) := by
  simp [hostvarsAfter, List.foldl_append]

theorem get?_hostvarsAfter_of_not_mem (nodes : List Server) (H : GoMap (GoMap String))
    (h : String) (hn : ∀ m ∈ nodes, m.GetHostname ≠ h) :
    (hostvarsAfter nodes H).get? h = H.get? h := by
  induction nodes generalizing H with
  | nil => rfl
  | cons n rest ih =>
    have h1 : n.GetHostname ≠ h := hn n (List.mem_cons_self _ _)
    have h2 : hostvarsAfter (n :: rest) H =
        hostvarsAfter rest (H.set n.GetHostname (hostVarsOf n)) := rfl
    rw [h2, ih _ (fun m hm => hn m (List.mem_cons_of_mem _ hm))]
    exact GoMap.get?_set_of_ne H _ (fun e => h1 e.symm)

theorem get?_hostvarsAfter_last (pre post : List Server) (n : Server)
    (H : GoMap (GoMap String)) (hpost : ∀ m ∈ post, m.GetHostname ≠ n.GetHostname) :
    (hostvarsAfter (pre ++ n :: post) H).get? n.GetHostname = some (hostVarsOf n) := by
  rw [hostvarsAfter_append]
  have h2 : hostvarsAfter (n :: post) (hostvarsAfter pre H) =
      hostvarsAfter post ((hostvarsAfter pre H).set n.GetHostname (hostVarsOf n)) := rfl
  rw [h2, get?_hostvarsAfter_of_not_mem _ _ _ hpost]
  simp

theorem mem_keys_hostvarsAfter (nodes : List Server) (H : GoMap (GoMap String)) (h : String) :
    h ∈ (hostvarsAfter nodes H).keys ↔ h ∈ H.keys ∨ h ∈ nodes.map Server.GetHostname := by
  induction nodes generalizing H with
  | nil => simp [hostvarsAfter]
  | cons n rest ih =>
    have h2 : hostvarsAfter (n :: rest) H =
        hostvarsAfter rest (H.set n.GetHostname (hostVarsOf n)) := rfl
    rw [h2, ih]
    have hk : h ∈ (H.set n.GetHostname (hostVarsOf n)).keys ↔ h ∈ H.keys ∨ h = n.GetHostname := by
      simp only [GoMap.mem_keys_iff, GoMap.get?_set]
      by_cases e : h = n.GetHostname
      · simp [e]
      · simp [e]
    rw [hk]
    simp only [List.map_cons, List.mem_cons]
    tauto

/-! ## Claims about the hostvars block and the host query -/

/-- C4: the hostvars block built by `MarshalInventoryList` (stored under "_meta",
with the single key "hostvars") has pairwise distinct keys, its key set is
exactly the set of input hostnames (one entry per distinct hostname), and the
entry of the hostname of a record that no later record shares is the one-variable
mapping from "ansible_host_ip" to `trimTrailingPort` of that record's address:
the last record of a hostname wins. -/
theorem hostvars_one_entry_per_hostname (nodes : List Server) :
    ∃ inventory metaBlock hostvars,
      buildInventory nodes = .ok inventory ∧
      MarshalInventoryList nodes = .ok (json.encodeInventory inventory) ∧
      inventory.get? "_meta" = some (.metaBlock metaBlock) ∧
      metaBlock.entries = [("hostvars", hostvars)] ∧
      hostvars.keys.Nodup ∧
      (∀ h, h ∈ hostvars.keys ↔ h ∈ nodes.map Server.GetHostname) ∧
      hostvars.keys.Perm (nodes.map Server.GetHostname).dedup ∧
      (∀ pre n post, nodes = pre ++ n :: post →
        (∀ m ∈ post, m.GetHostname ≠ n.GetHostname) →
        ∃ ip vars, trimTrailingPort n.GetAddr = .ok ip ∧
          hostvars.get? n.GetHostname = some vars ∧
          vars.entries = [("ansible_host_ip", ip)]) := by
  have hmem : ∀ h, h ∈ (hostvarsAfter nodes GoMap.empty).keys ↔
      h ∈ nodes.map Server.GetHostname := by
    intro h
    rw [mem_keys_hostvarsAfter]
    simp [GoMap.keys, GoMap.empty]
  refine ⟨_, metaOf (hostvarsAfter nodes GoMap.empty), hostvarsAfter nodes GoMap.empty,
    buildInventory_eq nodes, MarshalInventoryList_eq nodes, by simp, rfl,
    (hostvarsAfter nodes GoMap.empty).nodup, hmem, ?_, ?_⟩
  · refine (List.perm_ext_iff_of_nodup (hostvarsAfter nodes GoMap.empty).nodup
      (List.nodup_dedup _)).mpr ?_
    intro h
    rw [List.mem_dedup]
    exact hmem h
  · intro pre n post hdec hpost
    refine ⟨beforeColon n.GetAddr, hostVarsOf n, trimTrailingPort_eq _, ?_, rfl⟩
    rw [hdec]
    exact get?_hostvarsAfter_last pre post n _ hpost

theorem hostvars_one_entry_per_hostname_witness :
    ∃ hostvars : GoMap (GoMap String),
      hostvars.keys.Perm ["h1", "h2"] ∧
      ∃ vars, hostvars.get? "h1" = some vars ∧
        vars.entries = [("ansible_host_ip", "10.0.0.9")] := by
  obtain ⟨_, _, hostvars, _, _, _, _, _, _, hperm, hlast⟩ :=
    hostvars_one_entry_per_hostname duplicateHosts
  obtain ⟨ip, vars, hip, hget, hvars⟩ :=
    hlast [⟨"h1", "10.0.0.1:22", GoMap.empty⟩, ⟨"h2", "10.0.0.2:22", GoMap.empty⟩]
      ⟨"h1", "10.0.0.9:2222", GoMap.empty⟩ [] rfl (by simp)
  have hip' : ip = "10.0.0.9" := by
    have h2 : trimTrailingPort "10.0.0.9:2222" = .ok "10.0.0.9" := rfl
    have h3 : (Except.ok ip : Except Failure String) = .ok "10.0.0.9" := hip.symm.trans h2
    exact Except.ok.inj h3
  refine ⟨hostvars, ?_, vars, hget, by rw [hvars, hip']⟩
  have hd : (duplicateHosts.map Server.GetHostname).dedup = ["h2", "h1"] := by decide
  rw [hd] at hperm
  exact hperm.trans (List.Perm.swap _ _ _)

theorem hostLoop_of_not_mem (host : String) (nodes : List Server) (hostvars : GoMap String)
    (h : ∀ m ∈ nodes, m.GetHostname ≠ host) : hostLoop host nodes hostvars = .ok hostvars := by
  induction nodes with
  | nil => rfl
  | cons n rest ih =>
    have h1 : n.GetHostname ≠ host := h n (List.mem_cons_self _ _)
    simp only [hostLoop, h1, if_false]
    exact ih (fun m hm => h m (List.mem_cons_of_mem _ hm))

theorem hostLoop_first_match (host : String) (pre post : List Server) (n : Server)
    (hostvars : GoMap String) (hpre : ∀ m ∈ pre, m.GetHostname ≠ host)
    (hn : n.GetHostname = host) :
    hostLoop host (pre ++ n :: post) hostvars =
      .ok (hostvars.set "ansible_host_ip" (beforeColon n.GetAddr)) := by
  induction pre with
  | nil => simp [hostLoop, hn, index0_Split]
  | cons p rest ih =>
    have h1 : p.GetHostname ≠ host := hpre p (List.mem_cons_self _ _)
    simp only [List.cons_append, hostLoop, h1, if_false]
    exact ih (fun m hm => hpre m (List.mem_cons_of_mem _ hm))

theorem exists_first_match (nodes : List Server) (t : String)
    (ht : t ∈ nodes.map Server.GetHostname) :
    ∃ pre n post, nodes = pre ++ n :: post ∧ n.GetHostname = t ∧
      ∀ m ∈ pre, m.GetHostname ≠ t := by
  induction nodes with
  | nil => simp at ht
  | cons x rest ih =>
    by_cases hx : x.GetHostname = t
    · exact ⟨[], x, rest, rfl, hx, by simp⟩
    · have ht' : t ∈ rest.map Server.GetHostname := by
        simp only [List.map_cons, List.mem_cons] at ht
        rcases ht with e | hm
        · exact absurd e.symm hx
        · exact hm
      obtain ⟨pre, n, post, hdec, hn, hpre⟩ := ih ht'
      refine ⟨x :: pre, n, post, by simp [hdec], hn, ?_⟩
      intro m hm
      simp only [List.mem_cons] at hm
      rcases hm with e | hm
      · subst e; exact hx
      · exact hpre m hm

theorem encodeStringMap_single (k v : String) :
    json.encodeStringMap ((GoMap.empty : GoMap String).set k v) = .obj [(k, .str v)] := rfl

/-- C5: when the target hostname `t` equals the hostname of some record,
`MarshalInventoryHost` returns the object with the single key
"ansible_host_ip" whose value is the part before the first ':' of the address of
the first record, in input order, whose hostname is `t`; the records after that
first match (whatever they are) do not affect the result. -/
theorem MarshalInventoryHost_first_match (nodes : List Server) (t : String)
    (ht : t ∈ nodes.map Server.GetHostname) :
    ∃ pre n post ip,
      nodes = pre ++ n :: post ∧ n.GetHostname = t ∧ (∀ m ∈ pre, m.GetHostname ≠ t) ∧
      ':' ∉ ip.data ∧
      ((':' ∉ n.GetAddr.data ∧ ip = n.GetAddr) ∨ ∃ rest, n.GetAddr.data = ip.data ++ ':' :: rest) ∧
      buildHostvars nodes t = .ok ((GoMap.empty : GoMap String).set "ansible_host_ip" ip) ∧
      MarshalInventoryHost nodes t = .ok (.obj [("ansible_host_ip", .str ip)]) ∧
      ∀ post', MarshalInventoryHost (pre ++ n :: post') t =
        .ok (.obj [("ansible_host_ip", .str ip)]) := by
  obtain ⟨pre, n, post, hdec, hn, hpre⟩ := exists_first_match nodes t ht
  have hloop : ∀ post', buildHostvars (pre ++ n :: post') t =
      .ok ((GoMap.empty : GoMap String).set "ansible_host_ip" (beforeColon n.GetAddr)) :=
    fun post' => hostLoop_first_match t pre post' n GoMap.empty hpre hn
  have hout : ∀ post', MarshalInventoryHost (pre ++ n :: post') t =
      .ok (.obj [("ansible_host_ip", .str (beforeColon n.GetAddr))]) := by
    intro post'
    simp only [MarshalInventoryHost, hloop post', json.MarshalStringMap, encodeStringMap_single]
  refine ⟨pre, n, post, beforeColon n.GetAddr, hdec, hn, hpre,
    not_mem_takeWhile_ne ':' n.GetAddr.data, ?_, hdec ▸ hloop post, hdec ▸ hout post, hout⟩
  rcases takeWhile_ne_decomp ':' n.GetAddr.data with ⟨hc, he⟩ | ⟨rest, hr⟩
  · left
    refine ⟨hc, ?_⟩
    unfold beforeColon
    rw [he]
  · right; exact ⟨rest, hr⟩

theorem MarshalInventoryHost_first_match_witness :
    "h2" ∈ scenarioHosts.map Server.GetHostname ∧
    ∃ pre n post ip,
      scenarioHosts = pre ++ n :: post ∧ n.GetHostname = "h2" ∧
      (∀ m ∈ pre, m.GetHostname ≠ "h2") ∧
      ':' ∉ ip.data ∧
      ((':' ∉ n.GetAddr.data ∧ ip = n.GetAddr) ∨ ∃ rest, n.GetAddr.data = ip.data ++ ':' :: rest) ∧
      buildHostvars scenarioHosts "h2" =
        .ok ((GoMap.empty : GoMap String).set "ansible_host_ip" ip) ∧
      MarshalInventoryHost scenarioHosts "h2" = .ok (.obj [("ansible_host_ip", .str ip)]) ∧
      ∀ post', MarshalInventoryHost (pre ++ n :: post') "h2" =
        .ok (.obj [("ansible_host_ip", .str ip)]) :=
  ⟨by decide, MarshalInventoryHost_first_match scenarioHosts "h2" (by decide)⟩

/-- C6: when the target hostname equals no record's hostname (in particular on
the empty sequence), `MarshalInventoryHost` hands the empty mapping to the
encoder and returns the empty JSON object, written {}, with no error. -/
theorem MarshalInventoryHost_not_found (nodes : List Server) (t : String)
    (ht : ∀ n ∈ nodes, n.GetHostname ≠ t) :
    buildHostvars nodes t = .ok GoMap.empty ∧
    MarshalInventoryHost nodes t = .ok (.obj []) ∧
    MarshalInventoryHost [] t = .ok (.obj []) := by
  have h1 : buildHostvars nodes t = .ok GoMap.empty := hostLoop_of_not_mem t nodes _ ht
  refine ⟨h1, ?_, rfl⟩
  simp only [MarshalInventoryHost, h1, json.MarshalStringMap]
  rfl

theorem MarshalInventoryHost_not_found_witness :
    (∀ n ∈ scenarioHosts, n.GetHostname ≠ "h3") ∧
    MarshalInventoryHost scenarioHosts "h3" = .ok (.obj []) :=
  ⟨by decide, (MarshalInventoryHost_not_found scenarioHosts "h3" (by decide)).2.1⟩

/-! ## Lemmas: encoding and decoding -/

theorem lookup_map_snd {α β : Type} (f : α → β) (es : List (String × α)) (k : String) :
    (es.map (fun kv => (kv.1, f kv.2))).lookup k = (es.lookup k).map f := by
  induction es with
  | nil => rfl
  | cons e rest ih =>
    obtain ⟨k0, v0⟩ := e
    simp only [List.map_cons, lookup_cons_ite, ih]
    by_cases h : k = k0 <;> simp [h]

theorem lookup_filter_key {α : Type} (p : String → Bool) (es : List (String × α)) (k : String) :
    (es.filter (fun kv => p kv.1)).lookup k = if p k then es.lookup k else none := by
  induction es with
  | nil => simp
  | cons e rest ih =>
    obtain ⟨k0, v0⟩ := e
    by_cases hp : p k0 = true
    · rw [List.filter_cons_of_pos (by simpa using hp)]
      simp only [lookup_cons_ite, ih]
      by_cases h : k = k0
      · subst h; simp [hp]
      · simp [h]
    · rw [List.filter_cons_of_neg (by simpa using hp)]
      simp only [lookup_cons_ite, ih]
      by_cases h : k = k0
      · subst h; simp [hp]
      · simp [h]

theorem lookup_eq_of_perm {α : Type} {es es' : List (String × α)} (hp : es.Perm es')
    (hn : (es.map Prod.fst).Nodup) (k : String) : es.lookup k = es'.lookup k := by
  have hn' : (es'.map Prod.fst).Nodup := (hp.map Prod.fst).nodup_iff.mp hn
  apply Option.ext
  intro v
  simp only [Option.mem_def]
  rw [lookup_eq_some_iff_mem es hn, lookup_eq_some_iff_mem es' hn']
  exact hp.mem_iff

theorem sortedEntries_perm {α : Type} (m : GoMap α) : (sortedEntries m).Perm m.entries :=
  List.perm_insertionSort _ _

theorem lookup_sortedEntries {α : Type} (m : GoMap α) (k : String) :
    (sortedEntries m).lookup k = m.get? k :=
  (lookup_eq_of_perm (sortedEntries_perm m).symm m.nodup k).symm

theorem keys_sortedEntries_perm {α : Type} (m : GoMap α) :
    ((sortedEntries m).map Prod.fst).Perm m.keys :=
  (sortedEntries_perm m).map Prod.fst

theorem decodeItems_map_str (xs : List String) :
    json.decodeItems json.decodeString (xs.map Json.str) = some xs := by
  induction xs with
  | nil => rfl
  | cons x rest ih => simp [json.decodeItems, json.decodeString, ih]

theorem decodeMembers_map {α β : Type} (dec : Json → Option β) (enc : α → Json) (g : α → β)
    (es : List (String × α)) (h : ∀ kv ∈ es, dec (enc kv.2) = some (g kv.2)) :
    json.decodeMembers dec (es.map (fun kv => (kv.1, enc kv.2))) =
      some (es.map (fun kv => (kv.1, g kv.2))) := by
  induction es with
  | nil => rfl
  | cons e rest ih =>
    have h1 := h e (List.mem_cons_self _ _)
    have h2 := ih (fun kv hkv => h kv (List.mem_cons_of_mem _ hkv))
    simp [json.decodeMembers, h1, h2]

theorem decodeStringMap_encodeStringMap (m : GoMap String) :
    json.decodeStringMap (json.encodeStringMap m) = some (sortedEntries m) := by
  have h := decodeMembers_map json.decodeString Json.str id (sortedEntries m)
    (fun _ _ => rfl)
  simpa [json.decodeStringMap, json.encodeStringMap] using h

theorem decodeGroup_encodeGroup (g : Group) :
    json.decodeGroup (json.encodeGroup g) =
      some { hosts := g.Hosts, vars := sortedEntries g.Vars } := by
  have h1 : json.field "hosts" (json.encodeGroup g) = some (.arr (g.Hosts.map Json.str)) := by
    simp [json.field, json.encodeGroup, lookup_cons_ite]
  have h2 : json.field "vars" (json.encodeGroup g) = some (json.encodeStringMap g.Vars) := by
    simp [json.field, json.encodeGroup, lookup_cons_ite]
  simp [json.decodeGroup, h1, h2, json.decodeStringList, decodeItems_map_str,
    decodeStringMap_encodeStringMap]

theorem sortedEntries_metaOf (H : GoMap (GoMap String)) :
    sortedEntries (metaOf H) = [("hostvars", H)] := rfl

theorem decodeHostvars_encodeMeta (H : GoMap (GoMap String)) :
    (json.field "hostvars" (json.encodeMeta (metaOf H))).bind json.decodeHostvars =
      some ((sortedEntries H).map (fun kv => (kv.1, sortedEntries kv.2))) := by
  have h := decodeMembers_map json.decodeStringMap json.encodeStringMap sortedEntries
    (sortedEntries H) (fun kv _ => decodeStringMap_encodeStringMap kv.2)
  simp only [json.encodeMeta, sortedEntries_metaOf, List.map_cons, List.map_nil, json.field,
    lookup_cons_ite, if_true, Option.some_bind, json.decodeHostvars]
  exact h

/-! ## Lemmas: the inventory map -/

theorem get?_foldl_group (es : List (String × List String))
    (hn : (es.map Prod.fst).Nodup) (inv0 : GoMap InventoryValue) (K : String) :
    (es.foldl
        (fun inventory kh =>
          inventory.set kh.1 (.group { Hosts := kh.2, Vars := GoMap.empty }))
        inv0).get? K =
      match es.lookup K with
      | some hosts => some (.group { Hosts := hosts, Vars := GoMap.empty })
      | none => inv0.get? K := by
  induction es generalizing inv0 with
  | nil => rfl
  | cons e rest ih =>
    obtain ⟨k, v⟩ := e
    simp only [List.map_cons, List.nodup_cons] at hn
    rw [List.foldl_cons, ih hn.2]
    by_cases hK : K = k
    · subst hK
      rw [lookup_eq_none_of_not_mem_keys rest K hn.1]
      simp [lookup_cons_ite]
    · simp only [lookup_cons_ite, hK, if_false]
      rw [GoMap.get?_set_of_ne _ _ hK]

theorem get?_inventoryGroups (b : GoMap (List String)) (K : String) :
    (inventoryGroups b).get? K =
      (b.get? K).map (fun hosts => .group { Hosts := hosts, Vars := GoMap.empty }) := by
  unfold inventoryGroups
  rw [get?_foldl_group b.entries b.nodup]
  unfold GoMap.get?
  cases b.entries.lookup K <;> rfl

/-- The inventory map built from the groups `b` and the hostvars `H`. -/
theorem get?_inventory (b : GoMap (List String)) (M : Meta) (K : String) :
    ((inventoryGroups b).set "_meta" (.metaBlock M)).get? K =
      if K = "_meta" then some (.metaBlock M)
      else (b.get? K).map (fun hosts => .group { Hosts := hosts, Vars := GoMap.empty }) := by
  rw [GoMap.get?_set, get?_inventoryGroups]

/-- Decoding the JSON of the inventory built from the groups `b` and the hostvars
`H`: the hostvars come back, and every member but "_meta" comes back as a group. -/
theorem decodeInventory_encodeInventory (b : GoMap (List String)) (H : GoMap (GoMap String)) :
    json.decodeInventory
        (json.encodeInventory ((inventoryGroups b).set "_meta" (.metaBlock (metaOf H)))) =
      some
        { groups :=
            ((sortedEntries ((inventoryGroups b).set "_meta" (.metaBlock (metaOf H)))).filter
              (fun kv => decide (kv.1 ≠ "_meta"))).map (fun kv => (kv.1, valueAsGroup kv.2))
          hostvars := (sortedEntries H).map (fun kv => (kv.1, sortedEntries kv.2)) } := by
  set inv := (inventoryGroups b).set "_meta" (.metaBlock (metaOf H)) with hinv
  have hmeta : ((sortedEntries inv).map (fun kv => (kv.1, json.encodeValue kv.2))).lookup "_meta" =
      some (json.encodeMeta (metaOf H)) := by
    rw [lookup_map_snd, lookup_sortedEntries, hinv, get?_inventory]
    simp [json.encodeValue]
  have hfilter : ((sortedEntries inv).map (fun kv => (kv.1, json.encodeValue kv.2))).filter
        (fun kj => decide (kj.1 ≠ "_meta")) =
      ((sortedEntries inv).filter (fun kv => decide (kv.1 ≠ "_meta"))).map
        (fun kv => (kv.1, json.encodeValue kv.2)) := by
    rw [List.filter_map]
    rfl
  have hgroups := decodeMembers_map json.decodeGroup json.encodeValue valueAsGroup
    ((sortedEntries inv).filter (fun kv => decide (kv.1 ≠ "_meta"))) (by
      intro kv hkv
      rw [List.mem_filter] at hkv
      obtain ⟨hmem, hne⟩ := hkv
      have hne' : kv.1 ≠ "_meta" := by simpa using hne
      have hmem' : (kv.1, kv.2) ∈ inv.entries := (sortedEntries_perm inv).mem_iff.mp hmem
      have hget := (GoMap.get?_eq_some_iff inv kv.1 kv.2).mpr hmem'
      rw [hinv, get?_inventory, if_neg hne'] at hget
      cases hb : b.get? kv.1 with
      | none => rw [hb] at hget; exact absurd hget (by simp)
      | some hosts =>
        rw [hb] at hget
        have hv : kv.2 = .group { Hosts := hosts, Vars := GoMap.empty } := by
          simpa using hget.symm
        rw [hv]
        exact decodeGroup_encodeGroup _)
  simp only [json.encodeInventory, json.decodeInventory, hmeta, Option.some_bind,
    decodeHostvars_encodeMeta, hfilter, hgroups]

/-! ## Lemmas: the decoded listing -/

/-- The listing of `nodes`, decoded. -/
theorem decode_MarshalInventoryList (nodes : List Server) :
    ∃ out d, MarshalInventoryList nodes = .ok out ∧ json.decodeInventory out = some d ∧
      (d.groups.map Prod.fst).Nodup ∧
      (∀ K, d.groups.lookup K =
        if K = "_meta" then none
        else ((bufferLabels nodes).get? K).map (fun hosts => { hosts := hosts, vars := [] })) ∧
      (d.hostvars.map Prod.fst).Perm (hostvarsAfter nodes GoMap.empty).keys ∧
      (∀ h, d.hostvars.lookup h =
        ((hostvarsAfter nodes GoMap.empty).get? h).map sortedEntries) := by
  refine ⟨_, _, MarshalInventoryList_eq nodes, decodeInventory_encodeInventory _ _, ?_, ?_, ?_, ?_⟩
  · simp only [List.map_map]
    have hsub : List.Sublist
        (((sortedEntries ((inventoryGroups (bufferLabels nodes)).set "_meta"
            (.metaBlock (metaOf (hostvarsAfter nodes GoMap.empty))))).filter
          (fun kv => decide (kv.1 ≠ "_meta"))).map Prod.fst)
        ((sortedEntries ((inventoryGroups (bufferLabels nodes)).set "_meta"
            (.metaBlock (metaOf (hostvarsAfter nodes GoMap.empty))))).map Prod.fst) :=
      List.Sublist.map _ (List.filter_sublist _)
    exact List.Nodup.sublist hsub ((keys_sortedEntries_perm _).nodup_iff.mpr (GoMap.nodup _))
  · intro K
    have hf := lookup_filter_key (fun k => decide (k ≠ "_meta"))
      (sortedEntries ((inventoryGroups (bufferLabels nodes)).set "_meta"
        (.metaBlock (metaOf (hostvarsAfter nodes GoMap.empty))))) K
    simp only [] at hf
    rw [lookup_map_snd, hf, lookup_sortedEntries, get?_inventory]
    by_cases hK : K = "_meta"
    · simp [hK]
    · simp only [hK, ne_eq, not_false_eq_true, decide_True, if_true, if_false]
      cases (bufferLabels nodes).get? K <;> rfl
  · simp only [List.map_map]
    exact keys_sortedEntries_perm _
  · intro h
    rw [lookup_map_snd, lookup_sortedEntries]

theorem not_mem_keys_bufferLabels (nodes : List Server) (K : String)
    (h : ∀ n ∈ nodes, ∀ val, (K, val) ∈ n.GetAllLabels.entries →
      strings.ToLower val ≠ "ansible") :
    (bufferLabels nodes).get? K = none := by
  rw [get?_bufferLabels]
  have hnil : groupMembers nodes K = [] := by
    rw [List.eq_nil_iff_forall_not_mem]
    intro x hx
    obtain ⟨n, hn, _, hm⟩ := (mem_groupMembers_iff nodes K x).mp hx
    obtain ⟨val, hmem, hval⟩ := (hasAnsibleLabel_iff n K).mp hm
    exact h n hn val hmem hval
  simp [hnil]

/-! ## Claims about the listing -/

/-- C7, as stated, fails: a host labelled "_meta" = ansible is put in the group
"_meta" by `bufferLabels`, but the listing stores the meta block under that key,
so the decoded listing has no group at all. -/
theorem listing_roundtrip_counterexample :
    (bufferLabels metaLabelHosts).get? "_meta" = some ["h1"] ∧
    MarshalInventoryList metaLabelHosts =
      .ok (.obj [("_meta", .obj [("hostvars",
        .obj [("h1", .obj [("ansible_host_ip", .str "10.0.0.1")])])])]) ∧
    json.decodeInventory (.obj [("_meta", .obj [("hostvars",
        .obj [("h1", .obj [("ansible_host_ip", .str "10.0.0.1")])])])]) =
      some { groups := [], hostvars := [("h1", [("ansible_host_ip", "10.0.0.1")])] } :=
  ⟨rfl, rfl, rfl⟩

/-- C7, amended: for host records whose hostnames, addresses and label keys are
valid UTF-8 (the strings of this embedding), when no label whose value matches
"ansible" has the key "_meta", decoding the output of `MarshalInventoryList`
gives back, for every group name, exactly the host list `bufferLabels` returns
for it (with empty vars, and no group that `bufferLabels` does not return), and
for every hostname exactly the variables of the hostvars block that was
encoded. -/
theorem listing_roundtrip (nodes : List Server)
    (hmeta : ∀ n ∈ nodes, ∀ kv ∈ n.GetAllLabels.entries, kv.1 = "_meta" →
      strings.ToLower kv.2 ≠ "ansible") :
    ∃ out d metaBlock hostvars,
      MarshalInventoryList nodes = .ok out ∧ json.decodeInventory out = some d ∧
      buildMeta nodes = .ok metaBlock ∧ metaBlock.get? "hostvars" = some hostvars ∧
      (d.groups.map Prod.fst).Nodup ∧
      (∀ K, d.groups.lookup K =
        ((bufferLabels nodes).get? K).map (fun hosts => { hosts := hosts, vars := [] })) ∧
      (d.hostvars.map Prod.fst).Perm hostvars.keys ∧
      (∀ h, d.hostvars.lookup h = (hostvars.get? h).map sortedEntries) := by
  obtain ⟨out, d, hout, hd, hnd, hgroups, hkeys, hvars⟩ := decode_MarshalInventoryList nodes
  refine ⟨out, d, _, _, hout, hd, buildMeta_eq nodes, metaOf_get? _, hnd, ?_, hkeys, hvars⟩
  intro K
  rw [hgroups K]
  by_cases hK : K = "_meta"
  · subst hK
    rw [not_mem_keys_bufferLabels nodes "_meta"
      (fun n hn val hmem => hmeta n hn ("_meta", val) hmem rfl)]
    simp
  · simp [hK]

theorem listing_roundtrip_witness :
    (∀ n ∈ scenarioHosts, ∀ kv ∈ n.GetAllLabels.entries, kv.1 = "_meta" →
      strings.ToLower kv.2 ≠ "ansible") ∧
    ∃ out d metaBlock hostvars,
      MarshalInventoryList scenarioHosts = .ok out ∧ json.decodeInventory out = some d ∧
      buildMeta scenarioHosts = .ok metaBlock ∧ metaBlock.get? "hostvars" = some hostvars ∧
      (d.groups.map Prod.fst).Nodup ∧
      (∀ K, d.groups.lookup K =
        ((bufferLabels scenarioHosts).get? K).map
          (fun hosts => { hosts := hosts, vars := [] })) ∧
      (d.hostvars.map Prod.fst).Perm hostvars.keys ∧
      (∀ h, d.hostvars.lookup h = (hostvars.get? h).map sortedEntries) :=
  ⟨by decide, listing_roundtrip scenarioHosts (by decide)⟩

theorem mem_keys_inventory (b : GoMap (List String)) (M : Meta) (K : String) :
    K ∈ ((inventoryGroups b).set "_meta" (.metaBlock M)).keys ↔ K ∈ "_meta" :: b.keys := by
  rw [GoMap.mem_keys_iff, List.mem_cons, GoMap.mem_keys_iff]
  simp only [get?_inventory]
  by_cases hK : K = "_meta"
  · simp [hK]
  · simp only [hK, if_false, false_or]
    cases b.get? K <;> simp

theorem members_encodeInventory_lookup (inventory : GoMap InventoryValue) (K : String) :
    ((sortedEntries inventory).map (fun kv => (kv.1, json.encodeValue kv.2))).lookup K =
      (inventory.get? K).map json.encodeValue := by
  rw [lookup_map_snd, lookup_sortedEntries]

/-- C8: when no label key equals "_meta", the object `MarshalInventoryList`
builds and encodes has as keys exactly the group names of `bufferLabels` plus the
one key "_meta" (which is not a group name); every group name maps to the group
with the host list of `bufferLabels` and an empty vars mapping, written
{"hosts": [...], "vars": {}}; "_meta" maps to the object with the single key
"hostvars"; and the scenario input gives the group web = [h1] and the hostvars
of h1 and h2. -/
theorem listing_object_shape (nodes : List Server)
    (hkeys : ∀ n ∈ nodes, "_meta" ∉ n.GetAllLabels.keys) :
    ∃ inventory metaBlock hostvars members,
      buildInventory nodes = .ok inventory ∧
      MarshalInventoryList nodes = .ok (.obj members) ∧
      "_meta" ∉ (bufferLabels nodes).keys ∧
      inventory.keys.Perm ("_meta" :: (bufferLabels nodes).keys) ∧
      (members.map Prod.fst).Perm ("_meta" :: (bufferLabels nodes).keys) ∧
      (∀ K hosts, (bufferLabels nodes).get? K = some hosts →
        inventory.get? K = some (.group { Hosts := hosts, Vars := GoMap.empty }) ∧
        members.lookup K =
          some (.obj [("hosts", .arr (hosts.map Json.str)), ("vars", .obj [])])) ∧
      inventory.get? "_meta" = some (.metaBlock metaBlock) ∧
      metaBlock.entries = [("hostvars", hostvars)] ∧
      (∃ hv, members.lookup "_meta" = some (.obj [("hostvars", hv)])) ∧
      MarshalInventoryList scenarioHosts =
        .ok (.obj [
          ("_meta", .obj [("hostvars", .obj [
            ("h1", .obj [("ansible_host_ip", .str "10.0.0.1")]),
            ("h2", .obj [("ansible_host_ip", .str "10.0.0.2")])])]),
          ("web", .obj [("hosts", .arr [.str "h1"]), ("vars", .obj [])])]) := by
  have hnone : (bufferLabels nodes).get? "_meta" = none := by
    apply not_mem_keys_bufferLabels
    intro n hn val hmem _
    exact hkeys n hn (List.mem_map_of_mem Prod.fst hmem)
  have hnot : "_meta" ∉ (bufferLabels nodes).keys := by
    rw [GoMap.mem_keys_iff]
    rintro ⟨v, hv⟩
    rw [hnone] at hv
    exact absurd hv (by simp)
  have hnd : ("_meta" :: (bufferLabels nodes).keys).Nodup :=
    List.nodup_cons.mpr ⟨hnot, (bufferLabels nodes).nodup⟩
  have hperm : ((inventoryGroups (bufferLabels nodes)).set "_meta"
      (.metaBlock (metaOf (hostvarsAfter nodes GoMap.empty)))).keys.Perm
      ("_meta" :: (bufferLabels nodes).keys) :=
    (List.perm_ext_iff_of_nodup (GoMap.nodup _) hnd).mpr (fun K => mem_keys_inventory _ _ K)
  refine ⟨_, metaOf (hostvarsAfter nodes GoMap.empty), hostvarsAfter nodes GoMap.empty, _,
    buildInventory_eq nodes, MarshalInventoryList_eq nodes, hnot, hperm, ?_, ?_, by simp, rfl,
    ?_, rfl⟩
  · simp only [List.map_map]
    exact (keys_sortedEntries_perm _).trans hperm
  · intro K hosts hK
    have hne : K ≠ "_meta" := by
      rintro rfl
      rw [hnone] at hK
      exact absurd hK (by simp)
    have hget : ((inventoryGroups (bufferLabels nodes)).set "_meta"
        (.metaBlock (metaOf (hostvarsAfter nodes GoMap.empty)))).get? K =
        some (.group { Hosts := hosts, Vars := GoMap.empty }) := by
      rw [get?_inventory, if_neg hne, hK]
      rfl
    refine ⟨hget, ?_⟩
    rw [members_encodeInventory_lookup, hget]
    rfl
  · refine ⟨.obj ((sortedEntries (hostvarsAfter nodes GoMap.empty)).map
      (fun hv => (hv.1, json.encodeStringMap hv.2))), ?_⟩
    rw [members_encodeInventory_lookup, get?_inventory, if_pos rfl]
    rfl

theorem listing_object_shape_witness :
    (∀ n ∈ scenarioHosts, "_meta" ∉ n.GetAllLabels.keys) ∧
    ∃ members : List (String × Json),
      MarshalInventoryList scenarioHosts = .ok (.obj members) ∧
      (members.map Prod.fst).Perm ("_meta" :: (bufferLabels scenarioHosts).keys) ∧
      members.lookup "web" = some (.obj [("hosts", .arr [.str "h1"]), ("vars", .obj [])]) := by
  refine ⟨by decide, ?_⟩
  obtain ⟨_, _, _, members, _, hout, _, _, hperm, hgroup, _⟩ :=
    listing_object_shape scenarioHosts (by decide)
  exact ⟨members, hout, hperm, (hgroup "web" ["h1"] rfl).2⟩

/-! ## Hosts without a matching label -/

/-- C9, as stated, fails: the record `unlabelledHost` of `sharedNameHosts` has an
empty label set, yet its hostname "h1" is in the host list of group "web" of the
listing, put there by the second record of the same name. -/
theorem unlabelled_host_counterexample :
    unlabelledHost ∈ sharedNameHosts ∧
    (∀ kv ∈ unlabelledHost.GetAllLabels.entries, strings.ToLower kv.2 ≠ "ansible") ∧
    unlabelledHost.GetHostname ∈ (bufferLabels sharedNameHosts).index "web" [] ∧
    MarshalInventoryList sharedNameHosts =
      .ok (.obj [
        ("_meta", .obj [("hostvars", .obj [
          ("h1", .obj [("ansible_host_ip", .str "10.0.0.7")])])]),
        ("web", .obj [("hosts", .arr [.str "h1"]), ("vars", .obj [])])]) :=
  ⟨List.mem_cons_self _ _, by decide, by decide, rfl⟩

/-- C9, amended: a hostname of the input none of whose records has a label with
a value matching "ansible" is in the host list of no group, neither in the
result of `bufferLabels` nor in the decoded listing, and still has an entry in
the hostvars of the listing. -/
theorem unlabelled_host_in_hostvars_only (nodes : List Server) (h : String)
    (hin : h ∈ nodes.map Server.GetHostname)
    (hno : ∀ n ∈ nodes, n.GetHostname = h →
      ∀ kv ∈ n.GetAllLabels.entries, strings.ToLower kv.2 ≠ "ansible") :
    (∀ K, h ∉ (bufferLabels nodes).index K []) ∧
    ∃ out d, MarshalInventoryList nodes = .ok out ∧ json.decodeInventory out = some d ∧
      (∀ K g, (K, g) ∈ d.groups → h ∉ g.hosts) ∧
      h ∈ d.hostvars.map Prod.fst := by
  have hnot : ∀ K, h ∉ (bufferLabels nodes).index K [] := by
    intro K hmem
    rw [index_bufferLabels, mem_groupMembers_iff] at hmem
    obtain ⟨n, hn, hh, hm⟩ := hmem
    obtain ⟨val, hval, hlow⟩ := (hasAnsibleLabel_iff n K).mp hm
    exact hno n hn hh (K, val) hval hlow
  obtain ⟨out, d, hout, hd, hnd, hgroups, hkeys, _⟩ := decode_MarshalInventoryList nodes
  refine ⟨hnot, out, d, hout, hd, ?_, ?_⟩
  · intro K g hmem hh
    have hl := (lookup_eq_some_iff_mem d.groups hnd K g).mpr hmem
    rw [hgroups K] at hl
    by_cases hK : K = "_meta"
    · simp [hK] at hl
    · simp only [hK, if_false] at hl
      cases hb : (bufferLabels nodes).get? K with
      | none => rw [hb] at hl; exact absurd hl (by simp)
      | some hosts =>
        rw [hb] at hl
        have hg : g = { hosts := hosts, vars := [] } := by simpa using hl.symm
        apply hnot K
        simp only [GoMap.index, hb, Option.getD_some]
        rw [hg] at hh
        exact hh
  · rw [hkeys.mem_iff, mem_keys_hostvarsAfter]
    exact Or.inr hin

theorem unlabelled_host_in_hostvars_only_witness :
    "h2" ∈ scenarioHosts.map Server.GetHostname ∧
    (∀ n ∈ scenarioHosts, n.GetHostname = "h2" →
      ∀ kv ∈ n.GetAllLabels.entries, strings.ToLower kv.2 ≠ "ansible") ∧
    (∀ K, "h2" ∉ (bufferLabels scenarioHosts).index K []) ∧
    ∃ out d, MarshalInventoryList scenarioHosts = .ok out ∧
      json.decodeInventory out = some d ∧
      (∀ K g, (K, g) ∈ d.groups → "h2" ∉ g.hosts) ∧
      "h2" ∈ d.hostvars.map Prod.fst :=
  ⟨by decide, by decide,
    unlabelled_host_in_hostvars_only scenarioHosts "h2" (by decide) (by decide)⟩

/-! ## Lemmas: the static inventory -/

theorem header_data (name : String) : ("[" ++ name ++ "]").data = '[' :: (name.data ++ [']']) := by
  simp [String.data_append]

theorem isHeaderLine_header (name : String) : isHeaderLine ("[" ++ name ++ "]") = true := by
  unfold isHeaderLine
  rw [header_data]
  simp

theorem header_injective {a b : String} (h : "[" ++ a ++ "]" = "[" ++ b ++ "]") : a = b := by
  have hd := congrArg String.data h
  rw [header_data, header_data] at hd
  have h1 : a.data ++ [']'] = b.data ++ [']'] := List.cons.inj hd |>.2
  exact String.ext (List.append_cancel_right h1)

/-- A header line is a line of the form "[" name "]". -/
theorem isHeaderLine_iff (line : String) :
    isHeaderLine line = true ↔ ∃ name : String, line = "[" ++ name ++ "]" := by
  constructor
  · intro h
    unfold isHeaderLine at h
    split at h
    · rename_i rest hdata
      have hl : rest.getLast? = some ']' := by simpa using h
      obtain ⟨init, hinit⟩ : ∃ init, rest = init ++ [']'] := by
        rw [List.getLast?_eq_some_iff] at hl
        exact hl
      refine ⟨String.mk init, String.ext ?_⟩
      rw [header_data, hdata, hinit]
    · exact absurd h (by simp)
  · rintro ⟨name, rfl⟩
    exact isHeaderLine_header name

theorem mem_printedArguments (inventory : GoMap (List String)) (line : String) :
    line ∈ printedArguments inventory ↔
      ∃ e ∈ inventory.entries, line = "[" ++ e.1 ++ "]" ∨ line ∈ e.2 := by
  simp only [printedArguments, List.mem_flatMap, List.mem_cons]

theorem countP_header_flatMap (es : List (String × List String))
    (h : ∀ e ∈ es, ∀ x ∈ e.2, isHeaderLine x = false) :
    (es.flatMap (fun gn => ("[" ++ gn.1 ++ "]") :: gn.2)).countP isHeaderLine = es.length := by
  induction es with
  | nil => rfl
  | cons e rest ih =>
    have h0 : e.2.countP isHeaderLine = 0 := by
      rw [List.countP_eq_zero]
      intro x hx
      simp [h e (List.mem_cons_self _ _) x hx]
    rw [List.flatMap_cons, List.countP_append,
      List.countP_cons_of_pos (p := isHeaderLine) e.2 (isHeaderLine_header e.1), h0,
      ih (fun e' he' => h e' (List.mem_cons_of_mem _ he'))]
    simp [Nat.add_comm]

theorem count_header_flatMap (es : List (String × List String)) (K : String)
    (hn : (es.map Prod.fst).Nodup) (hK : K ∈ es.map Prod.fst)
    (h : ∀ e ∈ es, ∀ x ∈ e.2, isHeaderLine x = false) :
    (es.flatMap (fun gn => ("[" ++ gn.1 ++ "]") :: gn.2)).count ("[" ++ K ++ "]") = 1 := by
  induction es with
  | nil => simp at hK
  | cons e rest ih =>
    simp only [List.map_cons, List.nodup_cons] at hn
    have hhosts : e.2.count ("[" ++ K ++ "]") = 0 := by
      rw [List.count_eq_zero]
      intro hm
      have := h e (List.mem_cons_self _ _) _ hm
      rw [isHeaderLine_header] at this
      exact absurd this (by simp)
    have hrest : ∀ e' ∈ rest, ∀ x ∈ e'.2, isHeaderLine x = false :=
      fun e' he' => h e' (List.mem_cons_of_mem _ he')
    rw [List.flatMap_cons, List.count_append, List.count_cons, hhosts]
    by_cases hk : e.1 = K
    · have hnot : (rest.flatMap (fun gn => ("[" ++ gn.1 ++ "]") :: gn.2)).count
          ("[" ++ K ++ "]") = 0 := by
        rw [List.count_eq_zero]
        intro hm
        simp only [List.mem_flatMap, List.mem_cons] at hm
        obtain ⟨e', he', hor⟩ := hm
        rcases hor with heq | hmem
        · have : K = e'.1 := header_injective heq
          exact hn.1 (hk ▸ this ▸ List.mem_map_of_mem Prod.fst he')
        · have := hrest e' he' _ hmem
          rw [isHeaderLine_header] at this
          exact absurd this (by simp)
      simp [hnot, hk]
    · have hK' : K ∈ rest.map Prod.fst := by
        simp only [List.map_cons, List.mem_cons] at hK
        rcases hK with e1 | hm
        · exact absurd e1.symm hk
        · exact hm
      have hne : ("[" ++ e.1 ++ "]" == "[" ++ K ++ "]") = false := by
        simpa using fun heq => hk (header_injective heq)
      simp [ih hn.2 hK' hrest, hne]

/-! ## Lemmas: the text written and its lines -/

theorem splitChars_append_sep (sep : Char) (a rest : List Char) (h : sep ∉ a) :
    strings.splitChars sep (a ++ sep :: rest) = a :: strings.splitChars sep rest := by
  induction a with
  | nil => simp [strings.splitChars]
  | cons c a ih =>
    simp only [List.mem_cons, not_or] at h
    have hc : ¬ c = sep := fun e => h.1 e.symm
    have hunfold : strings.splitChars sep (c :: (a ++ sep :: rest)) =
        match strings.splitChars sep (a ++ sep :: rest) with
        | [] => [[c]]
        | piece :: pieces => (c :: piece) :: pieces := by
      simp only [strings.splitChars, hc, if_false]
    rw [List.cons_append, hunfold, ih h.2]

theorem splitChars_printed (args : List String) (h : ∀ a ∈ args, '\n' ∉ a.data) :
    strings.splitChars '\n' (args.flatMap (fun a => (fmt.Println a).data)) =
      args.map String.data ++ [[]] := by
  induction args with
  | nil => rfl
  | cons a rest ih =>
    have h1 : '\n' ∉ a.data := h a (List.mem_cons_self _ _)
    have h2 := ih (fun b hb => h b (List.mem_cons_of_mem _ hb))
    have hcons : (a :: rest).flatMap (fun a => (fmt.Println a).data) =
        a.data ++ '\n' :: rest.flatMap (fun a => (fmt.Println a).data) := by
      simp [List.flatMap_cons, fmt.Println]
    rw [hcons, splitChars_append_sep '\n' a.data _ h1, h2]
    rfl

/-- When no printed string has a line break in it, the lines of the text are
the printed strings. -/
theorem textLines_printAll (args : List String) (h : ∀ a ∈ args, '\n' ∉ a.data) :
    textLines (printAll args) = args := by
  unfold textLines printAll
  simp only [splitChars_printed args h]
  have hl : (args.map String.data ++ [[]]).getLast? = some [] := by simp
  rw [if_pos hl, List.dropLast_concat, List.map_map]
  have hid : (String.mk ∘ String.data) = id := by
    funext a
    rfl
  rw [hid, List.map_id]

theorem not_mem_header_data (name : String) (h : '\n' ∉ name.data) :
    '\n' ∉ ("[" ++ name ++ "]").data := by
  rw [header_data]
  simp only [List.mem_cons, List.mem_append, List.mem_singleton, not_or, List.not_mem_nil,
    or_false]
  exact ⟨by decide, h, by decide⟩

/-- Every group of `bufferLabels` is named by a label key of the input that
carries a matching value, and holds hostnames of the input. -/
theorem entry_of_bufferLabels (nodes : List Server) (e : String × List String)
    (he : e ∈ (bufferLabels nodes).entries) :
    (∃ n ∈ nodes, ∃ val, (e.1, val) ∈ n.GetAllLabels.entries ∧
      strings.ToLower val = "ansible") ∧
    (∀ x ∈ e.2, ∃ n ∈ nodes, n.GetHostname = x) := by
  have hget := (GoMap.get?_eq_some_iff (bufferLabels nodes) e.1 e.2).mpr he
  rw [get?_bufferLabels] at hget
  by_cases hnil : groupMembers nodes e.1 = []
  · rw [if_pos hnil] at hget
    exact absurd hget (by simp)
  · rw [if_neg hnil] at hget
    have heq : groupMembers nodes e.1 = e.2 := Option.some.inj hget
    constructor
    · obtain ⟨x, hx⟩ := List.exists_mem_of_ne_nil _ hnil
      obtain ⟨n, hn, _, hm⟩ := (mem_groupMembers_iff nodes e.1 x).mp hx
      obtain ⟨val, hval⟩ := (hasAnsibleLabel_iff n e.1).mp hm
      exact ⟨n, hn, val, hval⟩
    · intro x hx
      rw [← heq] at hx
      obtain ⟨n, hn, hh, _⟩ := (mem_groupMembers_iff nodes e.1 x).mp hx
      exact ⟨n, hn, hh⟩

/-- When no hostname and no key of a matching label has a line break in it, the
lines of the text `StaticInventory` writes are its printed strings, in whatever
order the groups are ranged over. -/
theorem textLines_printInventory (nodes : List Server) (inventory : GoMap (List String))
    (horder : inventory.entries.Perm (bufferLabels nodes).entries)
    (hhost : ∀ n ∈ nodes, '\n' ∉ n.GetHostname.data)
    (hkey : ∀ n ∈ nodes, ∀ kv ∈ n.GetAllLabels.entries,
      strings.ToLower kv.2 = "ansible" → '\n' ∉ kv.1.data) :
    textLines (printInventory inventory) = printedArguments inventory := by
  unfold printInventory
  apply textLines_printAll
  intro a ha
  rw [mem_printedArguments] at ha
  obtain ⟨e, he, hor⟩ := ha
  obtain ⟨⟨n, hn, val, hmem, hval⟩, hhosts⟩ :=
    entry_of_bufferLabels nodes e (horder.mem_iff.mp he)
  rcases hor with heq | hmem'
  · rw [heq]
    exact not_mem_header_data e.1 (hkey n hn (e.1, val) hmem hval)
  · obtain ⟨m, hm, hname⟩ := hhosts a hmem'
    rw [← hname]
    exact hhost m hm

/-! ## Claims about the static inventory -/

/-- C10, as stated, fails.  For a host named "[db]" labelled "_meta" = ansible,
`StaticInventory` writes the header line "[_meta]" and two lines of the form
"[" name "]" for one group.  For a host whose name has a line break in it, the
text has the line "[_meta]" and two such lines for one group.  For a label key
with a line break in it, the text has no such line for one group. -/
theorem StaticInventory_headers_counterexample :
    (StaticInventory bracketHosts = "[_meta]\n[db]\n" ∧
      "[_meta]" ∈ textLines (StaticInventory bracketHosts) ∧
      (textLines (StaticInventory bracketHosts)).countP isHeaderLine = 2 ∧
      (bufferLabels bracketHosts).keys.length = 1) ∧
    (StaticInventory lineBreakHosts = "[web]\nx\n[_meta]\n" ∧
      textLines (StaticInventory lineBreakHosts) = ["[web]", "x", "[_meta]"] ∧
      (textLines (StaticInventory lineBreakHosts)).countP isHeaderLine = 2 ∧
      (bufferLabels lineBreakHosts).keys.length = 1) ∧
    (StaticInventory lineBreakKeyHosts = "[a\nb]\nh1\n" ∧
      textLines (StaticInventory lineBreakKeyHosts) = ["[a", "b]", "h1"] ∧
      (textLines (StaticInventory lineBreakKeyHosts)).countP isHeaderLine = 0 ∧
      (bufferLabels lineBreakKeyHosts).keys.length = 1) := by
  decide

/-- C10, amended: when no label whose value matches "ansible" has the key "_meta"
or a key with a line break in it, and no hostname is of the form "[" name "]" or
has a line break in it, then, in whatever order the groups of `bufferLabels` are
ranged over, the text `StaticInventory` writes has no line "[_meta]", has the
header line of every group exactly once, and its number of lines of the form
"[" name "]" equals the number of groups. -/
theorem StaticInventory_headers (nodes : List Server) (inventory : GoMap (List String))
    (horder : inventory.entries.Perm (bufferLabels nodes).entries)
    (hmeta : ∀ n ∈ nodes, ∀ kv ∈ n.GetAllLabels.entries, kv.1 = "_meta" →
      strings.ToLower kv.2 ≠ "ansible")
    (hnames : ∀ n ∈ nodes, isHeaderLine n.GetHostname = false)
    (hhost : ∀ n ∈ nodes, '\n' ∉ n.GetHostname.data)
    (hkey : ∀ n ∈ nodes, ∀ kv ∈ n.GetAllLabels.entries,
      strings.ToLower kv.2 = "ansible" → '\n' ∉ kv.1.data) :
    "[_meta]" ∉ textLines (printInventory inventory) ∧
    (∀ K ∈ (bufferLabels nodes).keys,
      (textLines (printInventory inventory)).count ("[" ++ K ++ "]") = 1) ∧
    (textLines (printInventory inventory)).countP isHeaderLine =
      (bufferLabels nodes).keys.length ∧
    "[_meta]" ∉ textLines (StaticInventory nodes) ∧
    (textLines (StaticInventory nodes)).countP isHeaderLine =
      (bufferLabels nodes).keys.length := by
  have hnone : (bufferLabels nodes).get? "_meta" = none :=
    not_mem_keys_bufferLabels nodes "_meta"
      (fun n hn val hmem => hmeta n hn ("_meta", val) hmem rfl)
  -- the hosts of every group are hostnames of the input, hence not header lines
  have hhosts : ∀ e ∈ (bufferLabels nodes).entries, ∀ x ∈ e.2, isHeaderLine x = false := by
    intro e he x hx
    obtain ⟨n, hn, hh⟩ := (entry_of_bufferLabels nodes e he).2 x hx
    rw [← hh]
    exact hnames n hn
  have hkeyne : ∀ e ∈ (bufferLabels nodes).entries, e.1 ≠ "_meta" := by
    intro e he heq
    have hget := (GoMap.get?_eq_some_iff (bufferLabels nodes) e.1 e.2).mpr he
    rw [heq, hnone] at hget
    exact absurd hget (by simp)
  have main : ∀ inv : GoMap (List String), inv.entries.Perm (bufferLabels nodes).entries →
      "[_meta]" ∉ textLines (printInventory inv) ∧
      (∀ K ∈ (bufferLabels nodes).keys,
        (textLines (printInventory inv)).count ("[" ++ K ++ "]") = 1) ∧
      (textLines (printInventory inv)).countP isHeaderLine =
        (bufferLabels nodes).keys.length := by
    intro inv hp
    rw [textLines_printInventory nodes inv hp hhost hkey]
    have hh : ∀ e ∈ inv.entries, ∀ x ∈ e.2, isHeaderLine x = false :=
      fun e he => hhosts e (hp.mem_iff.mp he)
    refine ⟨?_, ?_, ?_⟩
    · rw [mem_printedArguments]
      rintro ⟨e, he, heq | hmem⟩
      · have h1 : "[" ++ "_meta" ++ "]" = "[" ++ e.1 ++ "]" := heq
        exact hkeyne e (hp.mem_iff.mp he) (header_injective h1).symm
      · have := hh e he _ hmem
        exact absurd this (by decide)
    · intro K hK
      have hK' : K ∈ inv.entries.map Prod.fst := ((hp.map Prod.fst).mem_iff).mpr hK
      exact count_header_flatMap inv.entries K inv.nodup hK' hh
    · have hlen : inv.entries.length = (bufferLabels nodes).keys.length := by
        rw [hp.length_eq]; simp [GoMap.keys]
      rw [← hlen]
      exact countP_header_flatMap inv.entries hh
  obtain ⟨h1, h2, h3⟩ := main inventory horder
  obtain ⟨h4, _, h5⟩ := main (bufferLabels nodes) (List.Perm.refl _)
  exact ⟨h1, h2, h3, h4, h5⟩

theorem StaticInventory_headers_witness :
    (⟨[("db", ["h2"]), ("web", ["h1", "h2"])], by decide⟩ : GoMap (List String)).entries.Perm
      (bufferLabels twoGroupHosts).entries ∧
    (∀ n ∈ twoGroupHosts, ∀ kv ∈ n.GetAllLabels.entries, kv.1 = "_meta" →
      strings.ToLower kv.2 ≠ "ansible") ∧
    (∀ n ∈ twoGroupHosts, isHeaderLine n.GetHostname = false) ∧
    (∀ n ∈ twoGroupHosts, '\n' ∉ n.GetHostname.data) ∧
    (∀ n ∈ twoGroupHosts, ∀ kv ∈ n.GetAllLabels.entries,
      strings.ToLower kv.2 = "ansible" → '\n' ∉ kv.1.data) ∧
    "[_meta]" ∉
      textLines (printInventory ⟨[("db", ["h2"]), ("web", ["h1", "h2"])], by decide⟩) ∧
    (textLines (printInventory
        ⟨[("db", ["h2"]), ("web", ["h1", "h2"])], by decide⟩)).countP isHeaderLine =
      (bufferLabels twoGroupHosts).keys.length ∧
    (textLines (StaticInventory twoGroupHosts)).countP isHeaderLine = 2 := by
  have hp : (⟨[("db", ["h2"]), ("web", ["h1", "h2"])], by decide⟩ :
      GoMap (List String)).entries.Perm (bufferLabels twoGroupHosts).entries := by
    have he : (bufferLabels twoGroupHosts).entries = [("web", ["h1", "h2"]), ("db", ["h2"])] := by
      decide
    rw [he]
    exact List.Perm.swap _ _ _
  have h := StaticInventory_headers twoGroupHosts
    ⟨[("db", ["h2"]), ("web", ["h1", "h2"])], by decide⟩ hp (by decide) (by decide)
    (by decide) (by decide)
  exact ⟨hp, by decide, by decide, by decide, by decide, h.1, h.2.2.1, h.2.2.2.2⟩

/-! ## Further claims about the grouping and the encoders -/

theorem lines_eq_sections (nodes : List Server) (inventory : GoMap (List String))
    (horder : inventory.entries.Perm (bufferLabels nodes).entries) :
    printedArguments inventory =
      (inventory.entries.map
        (fun e => ("[" ++ e.1 ++ "]") :: (bufferLabels nodes).index e.1 [])).flatten := by
  have hval : ∀ e ∈ inventory.entries, (bufferLabels nodes).index e.1 [] = e.2 := by
    intro e he
    have hget := (GoMap.get?_eq_some_iff (bufferLabels nodes) e.1 e.2).mpr (horder.mem_iff.mp he)
    simp [GoMap.index, hget]
  unfold printedArguments
  rw [List.flatMap_def]
  congr 1
  apply List.map_congr_left
  intro e he
  rw [hval e he]

theorem length_printedArguments (inventory : GoMap (List String)) :
    (printedArguments inventory).length =
      inventory.entries.length + (inventory.entries.map (fun e => e.2.length)).sum := by
  unfold printedArguments
  induction inventory.entries with
  | nil => rfl
  | cons e rest ih =>
    simp only [List.flatMap_cons, List.length_append, List.length_cons, ih, List.map_cons,
      List.sum_cons]
    omega

theorem bufferLabels_eq_empty_of_no_match (nodes : List Server)
    (h : ∀ n ∈ nodes, ∀ kv ∈ n.GetAllLabels.entries, strings.ToLower kv.2 ≠ "ansible") :
    (bufferLabels nodes).entries = [] := by
  cases he : (bufferLabels nodes).entries with
  | nil => rfl
  | cons e rest =>
    have hmem : (e.1, e.2) ∈ (bufferLabels nodes).entries := by rw [he]; exact List.mem_cons_self _ _
    have hget := (GoMap.get?_eq_some_iff (bufferLabels nodes) e.1 e.2).mpr hmem
    rw [not_mem_keys_bufferLabels nodes e.1
      (fun n hn val hm => h n hn (e.1, val) hm)] at hget
    exact absurd hget (by simp)

/-- C11, as stated, fails.  For a host whose name has a line break in it, in one
group, the text has three lines for one group and one host, the hostname
taking two of them; for a label key with a line break in it, the header is
spread over two lines, neither of them "[" + group name + "]". -/
theorem StaticInventory_lines_counterexample :
    (bufferLabels lineBreakHosts).entries = [("web", ["x\n[_meta]"])] ∧
    textLines (StaticInventory lineBreakHosts) = ["[web]", "x", "[_meta]"] ∧
    (textLines (StaticInventory lineBreakHosts)).length = 3 ∧
    (bufferLabels lineBreakHosts).keys.length +
      ((bufferLabels lineBreakHosts).entries.map (fun e => e.2.length)).sum = 2 ∧
    (bufferLabels lineBreakKeyHosts).entries = [("a\nb", ["h1"])] ∧
    textLines (StaticInventory lineBreakKeyHosts) = ["[a", "b]", "h1"] ∧
    "[a\nb]" ∉ textLines (StaticInventory lineBreakKeyHosts) := by
  decide

/-- C11, amended: when no hostname and no key of a label whose value matches
"ansible" has a line break in it, then, in whatever order the groups of
`bufferLabels` are ranged over (each group once), the lines of the text
`StaticInventory` writes are exactly the sections of the groups put one after
the other, a section being the header line "[" + group name + "]" followed by the
hostnames of that group in the order of its list, with nothing else in between;
so the number of lines is the number of groups plus the sum of the groups' host
counts; and nothing is written when no label value matches "ansible". -/
theorem StaticInventory_lines (nodes : List Server) (inventory : GoMap (List String))
    (horder : inventory.entries.Perm (bufferLabels nodes).entries)
    (hhost : ∀ n ∈ nodes, '\n' ∉ n.GetHostname.data)
    (hkey : ∀ n ∈ nodes, ∀ kv ∈ n.GetAllLabels.entries,
      strings.ToLower kv.2 = "ansible" → '\n' ∉ kv.1.data) :
    printInventory inventory =
      printAll (inventory.entries.map
        (fun e => ("[" ++ e.1 ++ "]") :: (bufferLabels nodes).index e.1 [])).flatten ∧
    textLines (printInventory inventory) =
      (inventory.entries.map
        (fun e => ("[" ++ e.1 ++ "]") :: (bufferLabels nodes).index e.1 [])).flatten ∧
    inventory.keys.Nodup ∧ inventory.keys.Perm (bufferLabels nodes).keys ∧
    (textLines (printInventory inventory)).length =
      (bufferLabels nodes).keys.length +
        ((bufferLabels nodes).entries.map (fun e => e.2.length)).sum ∧
    textLines (StaticInventory nodes) =
      ((bufferLabels nodes).entries.map (fun e => ("[" ++ e.1 ++ "]") :: e.2)).flatten ∧
    ((∀ n ∈ nodes, ∀ kv ∈ n.GetAllLabels.entries, strings.ToLower kv.2 ≠ "ansible") →
      printInventory inventory = "" ∧ StaticInventory nodes = "") := by
  have hlines := textLines_printInventory nodes inventory horder hhost hkey
  have hsect := lines_eq_sections nodes inventory horder
  refine ⟨?_, ?_, inventory.nodup, horder.map Prod.fst, ?_, ?_, ?_⟩
  · unfold printInventory
    rw [hsect]
  · rw [hlines, hsect]
  · rw [hlines, length_printedArguments, horder.length_eq,
      ((horder.map (fun e => e.2.length)).sum_eq)]
    simp [GoMap.keys]
  · unfold StaticInventory
    rw [textLines_printInventory nodes (bufferLabels nodes) (List.Perm.refl _) hhost hkey]
    simp [printedArguments, List.flatMap_def]
  · intro h
    have he := bufferLabels_eq_empty_of_no_match nodes h
    have hi : inventory.entries = [] := by
      rw [he] at horder
      exact horder.eq_nil
    constructor
    · simp only [printInventory, printedArguments, hi, List.flatMap_nil, printAll]
    · simp only [StaticInventory, printInventory, printedArguments, he, List.flatMap_nil,
        printAll]

theorem StaticInventory_lines_witness :
    (⟨[("db", ["h2"]), ("web", ["h1", "h2"])], by decide⟩ : GoMap (List String)).entries.Perm
      (bufferLabels twoGroupHosts).entries ∧
    (∀ n ∈ twoGroupHosts, '\n' ∉ n.GetHostname.data) ∧
    (∀ n ∈ twoGroupHosts, ∀ kv ∈ n.GetAllLabels.entries,
      strings.ToLower kv.2 = "ansible" → '\n' ∉ kv.1.data) ∧
    printInventory ⟨[("db", ["h2"]), ("web", ["h1", "h2"])], by decide⟩ =
      "[db]\nh2\n[web]\nh1\nh2\n" ∧
    textLines (printInventory ⟨[("db", ["h2"]), ("web", ["h1", "h2"])], by decide⟩) =
      ["[db]", "h2", "[web]", "h1", "h2"] ∧
    (textLines
      (printInventory ⟨[("db", ["h2"]), ("web", ["h1", "h2"])], by decide⟩)).length = 5 := by
  have hp : (⟨[("db", ["h2"]), ("web", ["h1", "h2"])], by decide⟩ :
      GoMap (List String)).entries.Perm (bufferLabels twoGroupHosts).entries := by
    have he : (bufferLabels twoGroupHosts).entries = [("web", ["h1", "h2"]), ("db", ["h2"])] := by
      decide
    rw [he]
    exact List.Perm.swap _ _ _
  have h := StaticInventory_lines twoGroupHosts
    ⟨[("db", ["h2"]), ("web", ["h1", "h2"])], by decide⟩ hp (by decide) (by decide)
  refine ⟨hp, by decide, by decide, ?_, ?_, ?_⟩
  · rw [h.1]; decide
  · rw [h.2.1]; decide
  · rw [h.2.2.2.2.1]; decide

/-! ### Label order -/

theorem groupMembers_eq_of_sameUpToLabelOrder {nodes nodes' : List Server}
    (h : SameUpToLabelOrder nodes nodes') (K : String) :
    groupMembers nodes K = groupMembers nodes' K := by
  induction h with
  | nil => rfl
  | @cons n n' rest rest' hn _ ih =>
    obtain ⟨hname, _, hperm⟩ := hn
    have hl : hasAnsibleLabel n K = hasAnsibleLabel n' K := by
      unfold hasAnsibleLabel labelsMatch
      rw [lookup_eq_of_perm hperm n.GetAllLabels.nodup K]
    have ih' : groupMembers rest K = groupMembers rest' K := ih
    unfold groupMembers at ih' ⊢
    by_cases hm : hasAnsibleLabel n' K = true
    · have hm0 : hasAnsibleLabel n K = true := by rw [hl]; exact hm
      simp only [List.filter_cons, hm0, hm, if_true, List.map_cons, hname, ih']
    · have hm0 : ¬ hasAnsibleLabel n K = true := by rw [hl]; exact hm
      simp only [List.filter_cons, hm0, hm, if_false]
      exact ih'

/-- C12: listing the label entries of any host in another order (the keys of a
host being unique) does not change the result of `bufferLabels`: every group
name is mapped to the same host list, present or absent alike; inside one host,
a label changes the list of its own key only. -/
theorem bufferLabels_label_order (nodes nodes' : List Server)
    (h : SameUpToLabelOrder nodes nodes') :
    (∀ K, (bufferLabels nodes).get? K = (bufferLabels nodes').get? K) ∧
    (bufferLabels nodes).keys.Perm (bufferLabels nodes').keys ∧
    (∀ (hostname : String) (labels : GoMap String) (b : GoMap (List String)) (K : String),
      labelsMatch labels.entries K = false →
        (bufferLabelsHost hostname labels.entries b).get? K = b.get? K) := by
  have hget : ∀ K, (bufferLabels nodes).get? K = (bufferLabels nodes').get? K := by
    intro K
    rw [get?_bufferLabels, get?_bufferLabels, groupMembers_eq_of_sameUpToLabelOrder h K]
  refine ⟨hget, ?_, ?_⟩
  · refine (List.perm_ext_iff_of_nodup (GoMap.nodup _) (GoMap.nodup _)).mpr ?_
    intro K
    have h1 := GoMap.mem_keys_iff (bufferLabels nodes) K
    have h2 := GoMap.mem_keys_iff (bufferLabels nodes') K
    rw [hget K] at h1
    exact h1.trans h2.symm
  · intro hostname labels b K hK
    rw [get?_bufferLabelsHost hostname labels.entries labels.nodup b K, hK]
    simp

theorem bufferLabels_label_order_witness :
    SameUpToLabelOrder twoGroupHosts twoGroupHostsSwapped ∧
    (bufferLabels twoGroupHosts).entries = [("web", ["h1", "h2"]), ("db", ["h2"])] ∧
    (bufferLabels twoGroupHostsSwapped).entries = [("web", ["h1", "h2"]), ("db", ["h2"])] ∧
    (∀ K, (bufferLabels twoGroupHosts).get? K = (bufferLabels twoGroupHostsSwapped).get? K) := by
  have hs : SameUpToLabelOrder twoGroupHosts twoGroupHostsSwapped :=
    List.Forall₂.cons ⟨rfl, rfl, List.Perm.swap _ _ _⟩
      (List.Forall₂.cons ⟨rfl, rfl, List.Perm.swap _ _ _⟩ List.Forall₂.nil)
  exact ⟨hs, by decide, by decide, (bufferLabels_label_order _ _ hs).1⟩

/-! ### Group names -/

/-- C13: on the scenario input, whose host "h1" carries the label web = ansible,
`StaticInventory` writes the group under the label key alone, "[web]", and writes
no line "[web-ansible]": the group name is not of the form label, dash, value
that the documentation of `StaticInventory` describes. -/
theorem StaticInventory_group_name_is_label_key :
    StaticInventory scenarioHosts = "[web]\nh1\n" ∧
    textLines (StaticInventory scenarioHosts) = ["[web]", "h1"] ∧
    "[web-ansible]" ∉ textLines (StaticInventory scenarioHosts) ∧
    (bufferLabels scenarioHosts).keys = ["web"] ∧
    "web-ansible" ∉ (bufferLabels scenarioHosts).keys := by
  decide

/-! ### No failure -/

theorem hostLoop_ok (host : String) (nodes : List Server) (hostvars : GoMap String) :
    ∃ vars, hostLoop host nodes hostvars = .ok vars := by
  induction nodes with
  | nil => exact ⟨hostvars, rfl⟩
  | cons n rest ih =>
    by_cases h : n.GetHostname = host
    · exact ⟨hostvars.set "ansible_host_ip" (beforeColon n.GetAddr), by
        simp [hostLoop, h, index0_Split]⟩
    · obtain ⟨vars, hv⟩ := ih
      exact ⟨vars, by simp only [hostLoop, h, if_false, hv]⟩

theorem MarshalInventoryHost_ok (nodes : List Server) (host : String) :
    ∃ vars, buildHostvars nodes host = .ok vars ∧
      MarshalInventoryHost nodes host = .ok (json.encodeStringMap vars) := by
  obtain ⟨vars, hv⟩ := hostLoop_ok host nodes GoMap.empty
  have hb : buildHostvars nodes host = .ok vars := hv
  exact ⟨vars, hb, by simp only [MarshalInventoryHost, hb, json.MarshalStringMap]⟩

/-- C14: grouping and variable derivation cannot fail.  For every address,
`strings.Split(address, ":")` has at least one element, so element 0 is in range
and `trimTrailingPort` returns a value, be the address empty, without ':' or with
several; for every sequence of host records `bufferLabels` returns its map (hosts
without labels contributing no group), and `MarshalInventoryHost` and
`MarshalInventoryList` return a value, neither panic nor error. -/
theorem grouping_and_derivation_total (nodes : List Server) (a host : String) :
    0 < (strings.Split a ':').length ∧
    (∃ ip, index0 (strings.Split a ':') = .ok ip) ∧
    (∃ ip, trimTrailingPort a = .ok ip) ∧
    (∃ groups, bufferLabels nodes = groups ∧ groups.keys.Nodup) ∧
    ((∀ n ∈ nodes, n.GetAllLabels.entries = []) → (bufferLabels nodes).entries = []) ∧
    (∃ out, MarshalInventoryHost nodes host = .ok out) ∧
    (∃ out, MarshalInventoryList nodes = .ok out) ∧
    trimTrailingPort "" = .ok "" ∧
    trimTrailingPort "10.0.0.5" = .ok "10.0.0.5" ∧
    trimTrailingPort "fe80::1:22" = .ok "fe80" := by
  refine ⟨?_, ⟨_, index0_Split a⟩, ⟨_, trimTrailingPort_eq a⟩,
    ⟨_, rfl, (bufferLabels nodes).nodup⟩, ?_, ?_, ⟨_, MarshalInventoryList_eq nodes⟩,
    rfl, rfl, rfl⟩
  · obtain ⟨pieces, hp⟩ := splitChars_eq_cons ':' a.data
    simp [strings.Split, hp]
  · intro h
    apply bufferLabels_eq_empty_of_no_match
    intro n hn kv hkv
    rw [h n hn] at hkv
    exact absurd hkv (List.not_mem_nil _)
  · obtain ⟨vars, _, hv⟩ := MarshalInventoryHost_ok nodes host
    exact ⟨_, hv⟩

theorem grouping_and_derivation_total_witness :
    (∀ n ∈ duplicateHosts, n.GetAllLabels.entries = []) ∧
    (bufferLabels duplicateHosts).entries = [] ∧
    0 < (strings.Split "" ':').length :=
  ⟨by decide,
    (grouping_and_derivation_total duplicateHosts "" "h1").2.2.2.2.1 (by decide),
    (grouping_and_derivation_total duplicateHosts "" "h1").1⟩

/-! ### The host query against the listing -/

theorem field_hostvars_listing (nodes : List Server) (h : String) :
    ((json.field "_meta"
        (json.encodeInventory ((inventoryGroups (bufferLabels nodes)).set "_meta"
          (.metaBlock (metaOf (hostvarsAfter nodes GoMap.empty)))))).bind
      (fun m => (json.field "hostvars" m).bind (json.field h))) =
      ((hostvarsAfter nodes GoMap.empty).get? h).map json.encodeStringMap := by
  have h1 : json.field "_meta"
      (json.encodeInventory ((inventoryGroups (bufferLabels nodes)).set "_meta"
        (.metaBlock (metaOf (hostvarsAfter nodes GoMap.empty))))) =
      some (json.encodeMeta (metaOf (hostvarsAfter nodes GoMap.empty))) := by
    simp only [json.field, json.encodeInventory]
    rw [members_encodeInventory_lookup, get?_inventory, if_pos rfl]
    rfl
  rw [h1]
  simp only [Option.some_bind, json.encodeMeta, sortedEntries_metaOf, List.map_cons,
    List.map_nil, json.field, lookup_cons_ite, if_true]
  rw [lookup_map_snd, lookup_sortedEntries]

/-- C18: when the hostnames of the input are pairwise distinct, the mapping
`MarshalInventoryHost` builds for a hostname `h` of the input is the entry of `h`
in the hostvars built by `MarshalInventoryList`, and its JSON is the member `h`
of "_meta"."hostvars" in the listing; the mapping is empty exactly when the
hostvars have no entry for `h`; and the expression the host query splits the
address with is the one `trimTrailingPort` evaluates. -/
theorem host_query_agrees_with_listing (nodes : List Server)
    (hn : (nodes.map Server.GetHostname).Nodup) (h : String) :
    ∃ vars metaBlock hostvars listing,
      buildHostvars nodes h = .ok vars ∧
      MarshalInventoryHost nodes h = .ok (json.encodeStringMap vars) ∧
      buildMeta nodes = .ok metaBlock ∧ metaBlock.get? "hostvars" = some hostvars ∧
      MarshalInventoryList nodes = .ok listing ∧
      (h ∈ nodes.map Server.GetHostname →
        hostvars.get? h = some vars ∧
        (json.field "_meta" listing).bind
            (fun m => (json.field "hostvars" m).bind (json.field h)) =
          some (json.encodeStringMap vars)) ∧
      (vars.entries = [] ↔ hostvars.get? h = none) ∧
      (∀ a, index0 (strings.Split a ':') = trimTrailingPort a) := by
  by_cases hin : h ∈ nodes.map Server.GetHostname
  · obtain ⟨pre, n, post, hdec, hname, hpre⟩ := exists_first_match nodes h hin
    have hpost : ∀ m ∈ post, m.GetHostname ≠ n.GetHostname := by
      intro m hm heq
      rw [hdec, List.map_append, List.map_cons] at hn
      have h2 := (List.nodup_cons.mp (List.nodup_append.mp hn).2.1).1
      exact h2 (heq ▸ List.mem_map_of_mem Server.GetHostname hm)
    have hvars : buildHostvars nodes h = .ok (hostVarsOf n) := by
      rw [hdec]
      exact hostLoop_first_match h pre post n GoMap.empty hpre hname
    have hget : (hostvarsAfter nodes GoMap.empty).get? h = some (hostVarsOf n) := by
      rw [hdec, ← hname]
      exact get?_hostvarsAfter_last pre post n _ hpost
    refine ⟨hostVarsOf n, _, _, _, hvars, ?_, buildMeta_eq nodes, metaOf_get? _,
      MarshalInventoryList_eq nodes, ?_, ?_, fun _ => rfl⟩
    · simp only [MarshalInventoryHost, hvars, json.MarshalStringMap]
    · intro _
      refine ⟨hget, ?_⟩
      rw [field_hostvars_listing, hget]
      rfl
    · rw [hget]
      constructor
      · intro he; exact absurd he (by simp [hostVarsOf, GoMap.set, GoMap.empty, setEntries])
      · intro he; exact absurd he (by simp)
  · have hne : ∀ m ∈ nodes, m.GetHostname ≠ h := by
      intro m hm heq
      exact hin (heq ▸ List.mem_map_of_mem Server.GetHostname hm)
    have hvars : buildHostvars nodes h = .ok GoMap.empty := hostLoop_of_not_mem h nodes _ hne
    have hget : (hostvarsAfter nodes GoMap.empty).get? h = none := by
      rw [get?_hostvarsAfter_of_not_mem nodes _ h hne]
      rfl
    refine ⟨GoMap.empty, _, _, _, hvars, ?_, buildMeta_eq nodes, metaOf_get? _,
      MarshalInventoryList_eq nodes, fun hh => absurd hh hin, ?_, fun _ => rfl⟩
    · simp only [MarshalInventoryHost, hvars, json.MarshalStringMap]
    · rw [hget]
      exact ⟨fun _ => rfl, fun _ => rfl⟩

theorem host_query_agrees_with_listing_witness :
    (scenarioHosts.map Server.GetHostname).Nodup ∧
    ∃ vars metaBlock hostvars listing,
      buildHostvars scenarioHosts "h2" = .ok vars ∧
      MarshalInventoryHost scenarioHosts "h2" = .ok (json.encodeStringMap vars) ∧
      buildMeta scenarioHosts = .ok metaBlock ∧ metaBlock.get? "hostvars" = some hostvars ∧
      MarshalInventoryList scenarioHosts = .ok listing ∧
      ("h2" ∈ scenarioHosts.map Server.GetHostname →
        hostvars.get? "h2" = some vars ∧
        (json.field "_meta" listing).bind
            (fun m => (json.field "hostvars" m).bind (json.field "h2")) =
          some (json.encodeStringMap vars)) ∧
      (vars.entries = [] ↔ hostvars.get? "h2" = none) ∧
      (∀ a, index0 (strings.Split a ':') = trimTrailingPort a) :=
  ⟨by decide, host_query_agrees_with_listing scenarioHosts (by decide) "h2"⟩

/-! ### Concatenation of inputs -/

theorem groupMembers_append (xs ys : List Server) (K : String) :
    groupMembers (xs ++ ys) K = groupMembers xs K ++ groupMembers ys K := by
  simp [groupMembers, List.filter_append]

/-- C19: the host list of a group computed from `xs` followed by `ys` is the list
computed from `xs` followed by the list computed from `ys` (an absent group
counting as the empty list); the group is present in the result exactly when it
is present for `xs` or for `ys`; and the empty sequence gives no groups. -/
theorem bufferLabels_append (xs ys : List Server) (K : String) :
    (bufferLabels (xs ++ ys)).index K [] =
      (bufferLabels xs).index K [] ++ (bufferLabels ys).index K [] ∧
    (K ∈ (bufferLabels (xs ++ ys)).keys ↔
      K ∈ (bufferLabels xs).keys ∨ K ∈ (bufferLabels ys).keys) ∧
    (bufferLabels []).entries = [] ∧
    (bufferLabels []).get? K = none := by
  refine ⟨?_, ?_, rfl, rfl⟩
  · rw [index_bufferLabels, index_bufferLabels, index_bufferLabels, groupMembers_append]
  · have key : ∀ zs : List Server, K ∈ (bufferLabels zs).keys ↔ groupMembers zs K ≠ [] := by
      intro zs
      rw [GoMap.mem_keys_iff, get?_bufferLabels]
      by_cases hz : groupMembers zs K = [] <;> simp [hz]
    rw [key, key, key, groupMembers_append]
    simp only [ne_eq, List.append_eq_nil]
    tauto

/-! ## Claims about `lib/utils/utils.go` -/

namespace utils

theorem mem_firstOccurrences (xs : List String) (v : String) :
    v ∈ firstOccurrences xs ↔ v ∈ xs := by
  induction xs with
  | nil => simp [firstOccurrences]
  | cons x rest ih =>
    simp only [firstOccurrences, List.mem_cons, List.mem_filter, ih, decide_eq_true_eq]
    by_cases h : v = x <;> simp [h]

theorem nodup_firstOccurrences (xs : List String) : (firstOccurrences xs).Nodup := by
  induction xs with
  | nil => simp [firstOccurrences]
  | cons x rest ih =>
    simp only [firstOccurrences, List.nodup_cons, List.mem_filter, decide_eq_true_eq]
    exact ⟨fun h => h.2 rfl, ih.filter _⟩

theorem firstOccurrences_sublist (xs : List String) : (firstOccurrences xs).Sublist xs := by
  induction xs with
  | nil => simp [firstOccurrences]
  | cons x rest ih =>
    exact List.Sublist.cons₂ x ((List.filter_sublist _).trans ih)

theorem firstOccurrences_of_nodup (xs : List String) (h : xs.Nodup) :
    firstOccurrences xs = xs := by
  induction xs with
  | nil => rfl
  | cons x rest ih =>
    simp only [List.nodup_cons] at h
    simp only [firstOccurrences, ih h.2, List.cons.injEq, true_and]
    rw [List.filter_eq_self]
    intro y hy
    simp only [decide_eq_true_eq]
    rintro rfl
    exact h.1 hy

theorem firstOccurrences_concat (xs : List String) (x : String) :
    firstOccurrences (xs ++ [x]) =
      if x ∈ xs then firstOccurrences xs else firstOccurrences xs ++ [x] := by
  induction xs with
  | nil => simp [firstOccurrences]
  | cons a rest ih =>
    have hcons : firstOccurrences (a :: rest ++ [x]) =
        a :: (firstOccurrences (rest ++ [x])).filter (fun y => decide (y ≠ a)) := rfl
    have hcons' : firstOccurrences (a :: rest) =
        a :: (firstOccurrences rest).filter (fun y => decide (y ≠ a)) := rfl
    rw [hcons, hcons', ih]
    by_cases hxa : x = a
    · subst hxa
      by_cases hr : x ∈ rest
      · simp [hr]
      · simp [hr, List.filter_append]
    · by_cases hr : x ∈ rest
      · simp [hr, hxa]
      · simp [hr, hxa, List.filter_append]

/-- The loop of `Deduplicate` from a state in which `seen` holds exactly the
values of `out`. -/
theorem foldl_dedupStep (ys out : List String) (seen : GoMap Bool)
    (hinv : ∀ v, (seen.get? v).isSome = true ↔ v ∈ out) :
    (ys.foldl dedupStep (out, seen)).1 =
      out ++ (firstOccurrences ys).filter (fun y => decide (y ∉ out)) := by
  induction ys generalizing out seen with
  | nil => simp [firstOccurrences]
  | cons x rest ih =>
    rw [List.foldl_cons]
    cases hs : seen.get? x with
    | some b =>
      have hx : x ∈ out := (hinv x).mp (by simp [hs])
      have hstep : dedupStep (out, seen) x = (out, seen) := by simp [dedupStep, hs]
      rw [hstep, ih out seen hinv]
      congr 1
      simp only [firstOccurrences, List.filter_cons, hx, not_true_eq_false, decide_False,
        Bool.false_eq_true, if_false, List.filter_filter]
      apply List.filter_congr
      intro y _
      by_cases hy : y ∈ out
      · simp [hy]
      · have hne : y ≠ x := fun e => hy (e ▸ hx)
        simp [hy, hne]
    | none =>
      have hx : x ∉ out := fun h => by
        have := (hinv x).mpr h
        simp [hs] at this
      have hstep : dedupStep (out, seen) x = (out ++ [x], seen.set x true) := by
        simp [dedupStep, hs]
      have hinv' : ∀ v, ((seen.set x true).get? v).isSome = true ↔ v ∈ out ++ [x] := by
        intro v
        rw [GoMap.get?_set]
        by_cases hv : v = x
        · simp [hv]
        · simp [hv, hinv v]
      rw [hstep, ih _ _ hinv']
      simp only [firstOccurrences, List.filter_cons, hx, not_false_eq_true, decide_True, if_true,
        List.filter_filter, List.append_assoc, List.singleton_append]
      congr 2
      apply List.filter_congr
      intro y _
      by_cases hy : y ∈ out <;> by_cases hyx : y = x <;> simp [hy, hyx]

theorem Deduplicate_eq_firstOccurrences (xs : List String) :
    Deduplicate xs = firstOccurrences xs := by
  unfold Deduplicate
  split
  · rename_i h
    have : xs = [] := List.length_eq_zero.mp h
    subst this
    rfl
  · rw [foldl_dedupStep xs [] GoMap.empty (by simp)]
    simp

/-- C15: `Deduplicate xs` contains no value twice, contains exactly the values
that occur in `xs`, and is the subsequence of `xs` that keeps the first
occurrence of each value and drops every later one: a value added at the end of
the input is added at the end of the result when it is new and dropped when it
is not; a list without duplicates, and the empty list, are returned unchanged. -/
theorem Deduplicate_spec (xs : List String) :
    (Deduplicate xs).Nodup ∧
    (∀ v, v ∈ Deduplicate xs ↔ v ∈ xs) ∧
    (Deduplicate xs).Sublist xs ∧
    Deduplicate xs = firstOccurrences xs ∧
    (∀ x, Deduplicate (xs ++ [x]) =
      if x ∈ xs then Deduplicate xs else Deduplicate xs ++ [x]) ∧
    (xs.Nodup → Deduplicate xs = xs) ∧
    Deduplicate [] = [] := by
  refine ⟨?_, ?_, ?_, Deduplicate_eq_firstOccurrences xs, ?_, ?_, rfl⟩
  · rw [Deduplicate_eq_firstOccurrences]; exact nodup_firstOccurrences xs
  · intro v; rw [Deduplicate_eq_firstOccurrences]; exact mem_firstOccurrences xs v
  · rw [Deduplicate_eq_firstOccurrences]; exact firstOccurrences_sublist xs
  · intro x
    rw [Deduplicate_eq_firstOccurrences, Deduplicate_eq_firstOccurrences]
    exact firstOccurrences_concat xs x
  · intro h
    rw [Deduplicate_eq_firstOccurrences]
    exact firstOccurrences_of_nodup xs h

theorem Deduplicate_spec_witness :
    ["a", "b", "c"].Nodup ∧ Deduplicate ["a", "b", "c"] = ["a", "b", "c"] ∧
    Deduplicate (["a", "b", "c"] ++ ["a"]) = ["a", "b", "c"] := by
  have h := Deduplicate_spec ["a", "b", "c"]
  refine ⟨by decide, h.2.2.2.2.2.1 (by decide), ?_⟩
  rw [h.2.2.2.2.1 "a", if_pos (by decide)]
  exact h.2.2.2.2.2.1 (by decide)

theorem Pop_concat (init : List String) (last : String) :
    PortList.Pop (init ++ [last]) = .ok (last, init) := by
  have hlen : (init ++ [last]).length = init.length + 1 := by simp
  have hget : (init ++ [last])[init.length]? = some last := by simp
  unfold PortList.Pop
  rw [hlen]
  simp only [Nat.add_one_ne_zero, if_false, Nat.add_sub_cancel, hget]
  rw [List.take_left' rfl]

/-- C16: on a non-empty list `Pop` returns the last element and leaves the list
without it, the other elements and their order unchanged; on the empty list, and
only there, it panics instead of returning a value. -/
theorem Pop_spec (p : PortList) :
    (p ≠ [] →
      ∃ init last, p = init ++ [last] ∧ PortList.Pop p = .ok (last, init) ∧
        p.getLast? = some last ∧ init = p.dropLast ∧ init.length + 1 = p.length) ∧
    ((∃ msg, PortList.Pop p = .error (.panic msg)) ↔ p = []) ∧
    ((∃ r, PortList.Pop p = .ok r) ↔ p ≠ []) ∧
    PortList.Pop [] = .error (.panic "list is empty") := by
  have hne : p ≠ [] →
      ∃ init last, p = init ++ [last] ∧ PortList.Pop p = .ok (last, init) ∧
        p.getLast? = some last ∧ init = p.dropLast ∧ init.length + 1 = p.length := by
    intro h
    obtain ⟨init, last, rfl⟩ : ∃ init last, p = init ++ [last] :=
      ⟨p.dropLast, p.getLast h, (List.dropLast_append_getLast h).symm⟩
    exact ⟨init, last, rfl, Pop_concat init last, by simp, by simp, by simp⟩
  refine ⟨hne, ?_, ?_, rfl⟩
  · constructor
    · rintro ⟨msg, hmsg⟩
      by_contra h
      obtain ⟨init, last, _, hok, _⟩ := hne h
      rw [hok] at hmsg
      exact absurd hmsg (by simp)
    · rintro rfl
      exact ⟨"list is empty", rfl⟩
  · constructor
    · rintro ⟨r, hr⟩ rfl
      exact absurd hr (by simp [PortList.Pop])
    · intro h
      obtain ⟨init, last, _, hok, _⟩ := hne h
      exact ⟨_, hok⟩

theorem Pop_spec_witness :
    (["20000", "20001", "20002"] : PortList) ≠ [] ∧
    ∃ init last, (["20000", "20001", "20002"] : PortList) = init ++ [last] ∧
      PortList.Pop ["20000", "20001", "20002"] = .ok (last, init) ∧
      (["20000", "20001", "20002"] : PortList).getLast? = some last ∧
      init = (["20000", "20001", "20002"] : PortList).dropLast ∧
      init.length + 1 = (["20000", "20001", "20002"] : PortList).length :=
  ⟨by decide, (Pop_spec ["20000", "20001", "20002"]).1 (by decide)⟩

theorem digitChar_value (d : Nat) (h : d < 10) : (Nat.digitChar d).toNat - 48 = d := by
  interval_cases d <;> rfl

theorem valueRev_digitsRev (fuel n : Nat) (h : n < 10 ^ fuel) :
    valueRev (digitsRev fuel n) = n := by
  induction fuel generalizing n with
  | zero =>
    have : n = 0 := by simpa using h
    subst this
    rfl
  | succ fuel ih =>
    have hmod : n % 10 < 10 := Nat.mod_lt _ (by decide)
    by_cases hq : n / 10 = 0
    · simp only [digitsRev, hq, if_true, valueRev, digitChar_value _ hmod]
      omega
    · have hlt : n / 10 < 10 ^ fuel := by
        rw [Nat.div_lt_iff_lt_mul (by decide)]
        rw [pow_succ] at h
        exact h
      simp only [digitsRev, hq, if_false, valueRev, digitChar_value _ hmod, ih _ hlt]
      omega

theorem natDecimal_injective {a b : Nat} (h : natDecimal a = natDecimal b) : a = b := by
  have hd : (digitsRev (a + 1) a).reverse = (digitsRev (b + 1) b).reverse := by
    have := congrArg String.data h
    simpa [natDecimal] using this
  have hd' : digitsRev (a + 1) a = digitsRev (b + 1) b := List.reverse_injective hd
  have hpow : ∀ n : Nat, n < 10 ^ (n + 1) := fun n =>
    lt_of_lt_of_le (Nat.lt_pow_self (by decide) n) (Nat.pow_le_pow_right (by decide) (Nat.le_succ n))
  have ha := valueRev_digitsRev (a + 1) a (hpow a)
  have hb := valueRev_digitsRev (b + 1) b (hpow b)
  rw [hd'] at ha
  exact ha.symm.trans hb

theorem Itoa_natCast (k : Nat) : Itoa (k : Int) = natDecimal k := by
  have h : ¬ ((k : Int) < 0) := by omega
  simp [Itoa, h]

theorem wrapInt_of_range (x : Int) (h0 : 0 ≤ x) (h1 : x < 2 ^ 63) : wrapInt x = x := by
  unfold wrapInt
  rw [Int.emod_eq_of_lt (by omega) (by omega)]
  omega

theorem portsLoop_eq (count k : Nat) (list : List String)
    (h : (20000 : Int) + k + count < 2 ^ 63) :
    portsLoop count ((20000 : Int) + k) list =
      list ++ (List.range count).map (fun j => Itoa ((20000 : Int) + ((k + j : Nat) : Int))) := by
  induction count generalizing k list with
  | zero => simp [portsLoop]
  | succ c ih =>
    have hw : wrapInt ((20000 : Int) + k + 1) = (20000 : Int) + ((k + 1 : Nat) : Int) := by
      rw [wrapInt_of_range _ (by omega) (by omega)]
      push_cast
      ring
    have hih := ih (k + 1) (list ++ [Itoa ((20000 : Int) + k)]) (by push_cast; push_cast at h; omega)
    have hunfold : portsLoop (c + 1) ((20000 : Int) + k) list =
        portsLoop c (wrapInt ((20000 : Int) + k + 1)) (list ++ [Itoa ((20000 : Int) + k)]) := rfl
    have hf : ∀ j : Nat, Itoa ((20000 : Int) + ((k + 1 + j : Nat) : Int)) =
        Itoa ((20000 : Int) + ((k + (j + 1) : Nat) : Int)) := by
      intro j
      rw [Nat.add_assoc, Nat.add_comm 1 j]
    rw [hunfold, hw, hih, List.range_succ_eq_map, List.map_cons, List.map_map, List.append_assoc]
    simp only [hf, Function.comp_def, Nat.add_zero, List.singleton_append, Nat.succ_eq_add_one]

/-- C17, as stated, fails for a negative `n`: `make(PortList, 0, n)` panics, and
no list is returned. -/
theorem GetFreeTCPPorts_counterexample :
    GetFreeTCPPorts (2 ^ 44) (-1) = .error (.panic "makeslice: cap out of range") := by
  rfl

/-- C17, amended: for every `n` that is not negative, not above the largest
capacity the runtime accepts, and with 20000 + n within the range of `int`,
`GetFreeTCPPorts(n)` returns, with no error, the list of exactly `n` entries whose
`i`-th entry (0-based) is the decimal string of 20000 + i; the entries are
pairwise distinct. -/
theorem GetFreeTCPPorts_spec (maxCap : Nat) (n : Int) (h0 : 0 ≤ n) (hcap : n ≤ (maxCap : Int))
    (hov : 20000 + n < 2 ^ 63) :
    ∃ list : PortList,
      GetFreeTCPPorts maxCap n = .ok list ∧
      list = (List.range n.toNat).map (fun i : Nat => Itoa (20000 + (i : Int))) ∧
      list.length = n.toNat ∧
      (∀ i : Nat, i < n.toNat → list[i]? = some (Itoa (20000 + (i : Int)))) ∧
      list.Nodup := by
  have hguard : ¬ (n < 0 ∨ (maxCap : Int) < n) := by omega
  have hw : wrapInt (20000 + n) = 20000 + n := wrapInt_of_range _ (by omega) hov
  have hcount : (wrapInt (20000 + n) - 20000).toNat = n.toNat := by
    rw [hw]; congr 1; omega
  have hloop := portsLoop_eq n.toNat 0 [] (by
    have : ((n.toNat : Nat) : Int) = n := Int.toNat_of_nonneg h0
    push_cast
    omega)
  simp only [Nat.cast_zero, add_zero, List.nil_append, Nat.zero_add] at hloop
  refine ⟨_, ?_, rfl, by simp, ?_, ?_⟩
  · simp only [GetFreeTCPPorts, hguard, if_false, hcount, hloop]
  · intro i hi
    simp [hi]
  · refine List.Nodup.map_on ?_ (List.nodup_range _)
    intro i _ j _ hij
    have hi : (20000 : Int) + (i : Int) = ((20000 + i : Nat) : Int) := by push_cast; ring
    have hj : (20000 : Int) + (j : Int) = ((20000 + j : Nat) : Int) := by push_cast; ring
    rw [hi, hj, Itoa_natCast, Itoa_natCast] at hij
    have := natDecimal_injective hij
    omega

theorem GetFreeTCPPorts_spec_witness :
    (0 : Int) ≤ 3 ∧ (3 : Int) ≤ ((1000 : Nat) : Int) ∧ (20000 : Int) + 3 < 2 ^ 63 ∧
    ∃ list : PortList,
      GetFreeTCPPorts 1000 3 = .ok list ∧
      list = (List.range (3 : Int).toNat).map (fun i : Nat => Itoa (20000 + (i : Int))) ∧
      list.length = (3 : Int).toNat ∧
      (∀ i : Nat, i < (3 : Int).toNat → list[i]? = some (Itoa (20000 + (i : Int)))) ∧
      list.Nodup :=
  ⟨by decide, by decide, by decide, GetFreeTCPPorts_spec 1000 3 (by decide) (by decide) (by decide)⟩

end utils

end Ansible
